import Mathlib

/-!
Verification of the pinia-cached-store caching engine.

This file gives a shallow embedding of the two core components of the
repository and proves the specification claims about them:

* the canonical encoder of src/utils.ts: encode, decode and
  objectRepresentation (built from the platform primitives
  JSON.stringify, JSON.parse, btoa and atob, which are modelled here
  as faithful Lean implementations of their ECMAScript specifications);
* the cached-load engine of src/store.ts: defineCachedStore's
  construction-time validation and the actions loaded stores expose
  (the load, flushCache and clearCache actions).

Modelling conventions:

* JavaScript structured values (the JSON-representable fragment) are the
  inductive type Value below.  JSON numbers are modelled as integers;
  JavaScript floating point specifics (fractions, exponents, Infinity
  from overflowing literals) are outside the model.
* JavaScript strings are UTF-16 code unit sequences.  Lean strings are
  sequences of unicode scalar values; a Lean Char above 0xFFFF stands
  for the corresponding surrogate pair, and the conversion to and from
  code unit lists (utf16Encode / utf16Decode below) happens exactly
  where the source manipulates individual code units (charCodeAt,
  Uint16Array).  Lone surrogates are not representable; they cannot be
  produced by the engine itself.
* Failure (a thrown exception) is modelled with Option / Except.
-/

/-- A JavaScript structured value: null, boolean, number, string,
array, or object (an ordered list of string keyed members). -/
inductive Value where
  | null
  | bool (b : Bool)
  | num (n : Int)
  | str (s : String)
  | arr (elems : List Value)
  | obj (members : List (String × Value))

/-- Left brace character (written via its code point to keep string
literals brace-free). -/
def lbrace : Char := Char.ofNat 123

/-- Right brace character. -/
def rbrace : Char := Char.ofNat 125

/-- Decimal digit to character, as used by JavaScript number printing. -/
def digitChar (d : Nat) : Char := Char.ofNat (48 + d)

/-- Lowercase hexadecimal digit character, as produced e.g. by
Number.prototype.toString(16). -/
def hexChar (d : Nat) : Char :=
  if d < 10 then Char.ofNat (48 + d) else Char.ofNat (87 + d)

/-- Decimal digits of a natural number, least significant first.  The
fuel argument makes the recursion structural; any fuel at least n
produces the full digit list. -/
def natDigitsRev (fuel n : Nat) : List Char :=
  match fuel with
  | 0 => []
  | f + 1 => if n = 0 then [] else digitChar (n % 10) :: natDigitsRev f (n / 10)

/-- The standard decimal rendering of a natural number, as produced by
JavaScript's String(n) for integral n. -/
def natToChars (n : Nat) : List Char :=
  if n = 0 then ['0'] else (natDigitsRev n n).reverse

/-- The standard decimal rendering of an integer, as produced by
JavaScript's String(n) / JSON.stringify for integral numbers. -/
def intToChars (i : Int) : List Char :=
  if i < 0 then '-' :: natToChars i.natAbs else natToChars i.toNat

/-- JSON.stringify's QuoteJSONString escaping of one character
(ECMA-262): quote and backslash get a backslash escape, the five
control characters with short forms use them, all other control
characters use a four digit lowercase unicode escape, everything else
is emitted literally. -/
def jsonEscapeChar (c : Char) : List Char :=
  if c = '"' then ['\\', '"']
  else if c = '\\' then ['\\', '\\']
  else if c.toNat = 8 then ['\\', 'b']
  else if c.toNat = 9 then ['\\', 't']
  else if c.toNat = 10 then ['\\', 'n']
  else if c.toNat = 12 then ['\\', 'f']
  else if c.toNat = 13 then ['\\', 'r']
  else if c.toNat < 32 then
    ['\\', 'u', '0', '0', hexChar (c.toNat / 16), hexChar (c.toNat % 16)]
  else [c]

/-- A JSON string literal: opening quote, escaped body, closing quote. -/
def jsonQuote (s : List Char) : List Char :=
  '"' :: s.flatMap jsonEscapeChar ++ ['"']

/-- Comma-join a list of rendered fragments, exactly as JSON.stringify
does for array elements and object members. -/
def joinComma (parts : List (List Char)) : List Char :=
  match parts with
  | [] => []
  | [p] => p
  | p :: rest => p ++ ',' :: joinComma rest

/-- First-match lookup among already serialized members (used to model
the PropertyList-driven member selection of JSON.stringify when a
replacer array is supplied). -/
def lookupSer (l : List (String × List Char)) (k : String) : Option (List Char) :=
  match l with
  | [] => none
  | (k', s) :: rest => if k' = k then some s else lookupSer rest k

mutual
/-- JSON.stringify (ECMA-262 SerializeJSONProperty) on a Value.  When
props is some list, it plays the role of the PropertyList built from an
array replacer: object members are emitted in PropertyList order,
restricted to keys the object actually has, uniformly at every nesting
depth; array elements are never filtered.  When props is none this is
plain JSON.stringify with no replacer. -/
def stringifyV (props : Option (List String)) : Value → List Char
  | .null => "null".data
  | .bool true => "true".data
  | .bool false => "false".data
  | .num n => intToChars n
  | .str s => jsonQuote s.data
  | .arr xs => '[' :: joinComma (stringifyElems props xs) ++ [']']
  | .obj kvs =>
    let sers := stringifyMembers props kvs
    let parts :=
      match props with
      | none => sers.map (fun e => jsonQuote e.1.data ++ ':' :: e.2)
      | some ps =>
        ps.filterMap (fun p =>
          (lookupSer sers p).map (fun s => jsonQuote p.data ++ ':' :: s))
    lbrace :: joinComma parts ++ [rbrace]

/-- Serialize the elements of an array in order. -/
def stringifyElems (props : Option (List String)) : List Value → List (List Char)
  | [] => []
  | v :: rest => stringifyV props v :: stringifyElems props rest

/-- Serialize every member value of an object, keeping keys and order
(member selection and ordering is applied afterwards from this list). -/
def stringifyMembers (props : Option (List String)) :
    List (String × Value) → List (String × List Char)
  | [] => []
  | (k, v) :: rest => (k, stringifyV props v) :: stringifyMembers props rest
end

/-- Plain JSON.stringify with no replacer, as called by encode. -/
def stringify (v : Value) : List Char := stringifyV none v

mutual
/-- The keys visited by the first pass of objectRepresentation: the
replacer function of JSON.stringify(input, fn) is invoked once per
holder/key pair, so it sees every object key and every array index (as
a decimal string) at every depth, in document order.  The root call
additionally uses the empty string key, which the caller prepends. -/
def collectRawV : Value → List String
  | .arr xs => collectRawL 0 xs
  | .obj kvs => collectRawM kvs
  | _ => []

/-- Keys visited inside an array: the indices as decimal strings, each
followed by the keys of the element. -/
def collectRawL (i : Nat) : List Value → List String
  | [] => []
  | v :: rest => String.mk (natToChars i) :: collectRawV v ++ collectRawL (i + 1) rest

/-- Keys visited inside an object: each member key followed by the keys
of the member value, in declaration order. -/
def collectRawM : List (String × Value) → List String
  | [] => []
  | (k, v) :: rest => k :: collectRawV v ++ collectRawM rest
end

/-- Insertion into a JavaScript Set: deduplicating, first occurrence
wins, insertion order preserved.  The seen accumulator holds the keys
already emitted. -/
def jsDedupAux (seen : List String) : List String → List String
  | [] => []
  | k :: rest =>
    if k ∈ seen then jsDedupAux seen rest
    else k :: jsDedupAux (k :: seen) rest

/-- The contents of a JavaScript Set built by adding the elements of l
in order, read back in insertion order (Array.from of the Set). -/
def jsDedup (l : List String) : List String := jsDedupAux [] l

/-- Byte-wise lexicographic comparison of code unit sequences: the
default sort order of Array.prototype.sort, which compares strings as
sequences of UTF-16 code units.  (For keys whose characters all lie in
the basic multilingual plane this coincides with code point order used
here; the claims only need the order to be a fixed total order.) -/
def lexLe : List Char → List Char → Bool
  | [], _ => true
  | _ :: _, [] => false
  | a :: as, b :: bs =>
    if a.toNat < b.toNat then true
    else if b.toNat < a.toNat then false
    else lexLe as bs

/-- The string order used to sort the collected keys. -/
def strLe (a b : String) : Prop := lexLe a.data b.data = true

instance : DecidableRel strLe := fun a b => by
  unfold strLe; infer_instance

/-- The sorted key list of the second pass of objectRepresentation:
Array.from(keys).sort().  Modelled with insertion sort, which agrees
with any correct sort for a total order on a duplicate-free list. -/
def sortedKeys (v : Value) : List String :=
  List.insertionSort strLe (jsDedup ("" :: collectRawV v))

/-! ## Text encodings: UTF-16 code units, byte pairs, base64 -/

/-- The UTF-16 code units of one unicode scalar value. -/
def utf16EncodeChar (c : Char) : List Nat :=
  if c.toNat < 65536 then [c.toNat]
  else [55296 + (c.toNat - 65536) / 1024, 56320 + (c.toNat - 65536) % 1024]

/-- The UTF-16 code units of a string (what charCodeAt enumerates). -/
def utf16Encode (s : List Char) : List Nat := s.flatMap utf16EncodeChar

/-- Rebuild a string from UTF-16 code units (what String.fromCharCode
concatenation performs).  Fails on lone surrogates or out of range
units, which Lean characters cannot represent. -/
def utf16Decode : List Nat → Option (List Char)
  | [] => some []
  | u :: rest =>
    if u < 55296 ∨ (57343 < u ∧ u < 65536) then
      (utf16Decode rest).map (fun cs => Char.ofNat u :: cs)
    else if 55296 ≤ u ∧ u < 56320 then
      match rest with
      | u2 :: rest2 =>
        if 56320 ≤ u2 ∧ u2 < 57344 then
          (utf16Decode rest2).map
            (fun cs => Char.ofNat (65536 + (u - 55296) * 1024 + (u2 - 56320)) :: cs)
        else none
      | [] => none
    else none

/-- The byte splitting step of encode's fallback path: the Uint16Array
holding the code units is reinterpreted as a Uint8Array over the same
buffer, yielding for each unit its two bytes in platform (little
endian) order. -/
def splitPairs : List Nat → List Nat
  | [] => []
  | u :: rest => u % 256 :: u / 256 :: splitPairs rest

/-- The byte joining step of decode's fallback path: the Uint8Array of
bytes is reinterpreted as a Uint16Array, which requires an even byte
count (an odd buffer length makes the Uint16Array constructor throw). -/
def joinPairs : List Nat → Option (List Nat)
  | [] => some []
  | [_] => none
  | b0 :: b1 :: rest => (joinPairs rest).map (fun us => (b0 + 256 * b1) :: us)

/-- The base64 alphabet as code units, indexed by sextet value. -/
def b64Table : List Nat :=
  [65, 66, 67, 68, 69, 70, 71, 72, 73, 74, 75, 76, 77, 78, 79, 80, 81, 82,
   83, 84, 85, 86, 87, 88, 89, 90, 97, 98, 99, 100, 101, 102, 103, 104, 105,
   106, 107, 108, 109, 110, 111, 112, 113, 114, 115, 116, 117, 118, 119, 120,
   121, 122, 48, 49, 50, 51, 52, 53, 54, 55, 56, 57, 43, 47]

/-- Code unit of the base64 character for a sextet. -/
def b64c (n : Nat) : Nat := b64Table.getD n 65

/-- Index of a code unit in the base64 alphabet (the inverse table used
by atob); none for characters outside the alphabet. -/
def b64inv (u : Nat) : Option Nat :=
  let i := b64Table.findIdx (fun x => x = u)
  if i < 64 then some i else none

/-- btoa (HTML forgiving-base64 encode) on a list of byte values: each
group of three bytes becomes four sextet characters, with '=' padding
for a trailing group of one or two bytes.  btoa itself throws when some
input unit exceeds 255; callers model that precondition explicitly. -/
def btoa : List Nat → List Nat
  | [] => []
  | [b0] => [b64c (b0 / 4), b64c (b0 % 4 * 16), 61, 61]
  | [b0, b1] => [b64c (b0 / 4), b64c (b0 % 4 * 16 + b1 / 16), b64c (b1 % 16 * 4), 61]
  | b0 :: b1 :: b2 :: rest =>
    b64c (b0 / 4) :: b64c (b0 % 4 * 16 + b1 / 16) ::
      b64c (b1 % 16 * 4 + b2 / 64) :: b64c (b2 % 64) :: btoa rest

/-- atob (forgiving-base64 decode): processes groups of four
characters, accepting '=' padding only at the very end; any character
outside the alphabet or a malformed length makes it fail (throw). -/
def atob : List Nat → Option (List Nat)
  | [] => some []
  | u0 :: u1 :: u2 :: u3 :: rest =>
    match b64inv u0, b64inv u1 with
    | some s0, some s1 =>
      if u2 = 61 then
        if u3 = 61 ∧ rest = [] then some [s0 * 4 + s1 / 16] else none
      else
        match b64inv u2 with
        | some s2 =>
          if u3 = 61 then
            if rest = [] then some [s0 * 4 + s1 / 16, s1 % 16 * 16 + s2 / 4]
            else none
          else
            match b64inv u3 with
            | some s3 =>
              (atob rest).map
                (fun bs => (s0 * 4 + s1 / 16) :: (s1 % 16 * 16 + s2 / 4) ::
                  (s2 % 4 * 64 + s3) :: bs)
            | none => none
        | none => none
    | _, _ => none
  | _ => none

/-! ## A model of JSON.parse

Restricted to the fragment the engine can produce: numbers are integer
literals (fractions and exponents are outside the Int-valued number
model) and insignificant whitespace is not skipped (the engine's own
serializer emits none).  Everything else follows the JSON grammar,
including rejection of raw control characters and of trailing input. -/

/-- Is this code unit a decimal digit? -/
def isDigitCU (c : Char) : Bool := 48 ≤ c.toNat ∧ c.toNat ≤ 57

/-- Value of a hexadecimal digit character, upper or lower case. -/
def hexVal (c : Char) : Option Nat :=
  if 48 ≤ c.toNat ∧ c.toNat ≤ 57 then some (c.toNat - 48)
  else if 97 ≤ c.toNat ∧ c.toNat ≤ 102 then some (c.toNat - 87)
  else if 65 ≤ c.toNat ∧ c.toNat ≤ 70 then some (c.toNat - 55)
  else none

/-- Parse the body of a JSON string literal after the opening quote, up
to and including the closing quote; returns the unescaped contents and
the remaining input.  Accepts the escape sequences of the JSON grammar
and rejects raw control characters.  (A unicode escape denoting a lone
surrogate is collapsed to the replacement of Char.ofNat; such input is
never produced by the engine.) -/
def parseStringBody : List Char → Option (List Char × List Char)
  | [] => none
  | c :: rest =>
    if c = '"' then some ([], rest)
    else if c = '\\' then
      match rest with
      | [] => none
      | e :: rest2 =>
        if e = '"' then (parseStringBody rest2).map (fun r => ('"' :: r.1, r.2))
        else if e = '\\' then (parseStringBody rest2).map (fun r => ('\\' :: r.1, r.2))
        else if e = '/' then (parseStringBody rest2).map (fun r => ('/' :: r.1, r.2))
        else if e = 'b' then (parseStringBody rest2).map (fun r => (Char.ofNat 8 :: r.1, r.2))
        else if e = 'f' then (parseStringBody rest2).map (fun r => (Char.ofNat 12 :: r.1, r.2))
        else if e = 'n' then (parseStringBody rest2).map (fun r => (Char.ofNat 10 :: r.1, r.2))
        else if e = 'r' then (parseStringBody rest2).map (fun r => (Char.ofNat 13 :: r.1, r.2))
        else if e = 't' then (parseStringBody rest2).map (fun r => (Char.ofNat 9 :: r.1, r.2))
        else if e = 'u' then
          match rest2 with
          | h1 :: h2 :: h3 :: h4 :: rest3 =>
            match hexVal h1, hexVal h2, hexVal h3, hexVal h4 with
            | some a, some b, some c2, some d =>
              (parseStringBody rest3).map
                (fun r => (Char.ofNat (a * 4096 + b * 256 + c2 * 16 + d) :: r.1, r.2))
            | _, _, _, _ => none
          | _ => none
        else none
    else if c.toNat < 32 then none
    else (parseStringBody rest).map (fun r => (c :: r.1, r.2))

/-- Consume a maximal run of decimal digits, accumulating their value. -/
def parseDigits (acc : Nat) : List Char → Nat × List Char
  | [] => (acc, [])
  | c :: rest =>
    if isDigitCU c then parseDigits (acc * 10 + (c.toNat - 48)) rest
    else (acc, c :: rest)

/-- Parse an integer JSON number: optional minus sign followed by at
least one digit.  (Leading zero rejection and fraction/exponent parts
of full JSON are outside the integer number model.) -/
def parseNumber : List Char → Option (Int × List Char)
  | [] => none
  | c :: rest =>
    if c = '-' then
      match rest with
      | d :: _ =>
        if isDigitCU d then
          let r := parseDigits 0 rest
          some (-(r.1 : Int), r.2)
        else none
      | [] => none
    else if isDigitCU c then
      let r := parseDigits 0 (c :: rest)
      some ((r.1 : Int), r.2)
    else none

mutual
/-- Recursive descent parse of one JSON value; the fuel bounds nesting
and list length and only decreases, never changes the result (any
sufficiently large fuel, in particular input length + 1, is enough). -/
def parseValue : Nat → List Char → Option (Value × List Char)
  | 0, _ => none
  | fuel + 1, input =>
    match input with
    | [] => none
    | c :: rest =>
      if c = 'n' then
        match rest with
        | c1 :: c2 :: c3 :: r =>
          if c1 = 'u' then if c2 = 'l' then if c3 = 'l' then some (.null, r)
            else none else none else none
        | _ => none
      else if c = 't' then
        match rest with
        | c1 :: c2 :: c3 :: r =>
          if c1 = 'r' then if c2 = 'u' then if c3 = 'e' then some (.bool true, r)
            else none else none else none
        | _ => none
      else if c = 'f' then
        match rest with
        | c1 :: c2 :: c3 :: c4 :: r =>
          if c1 = 'a' then if c2 = 'l' then if c3 = 's' then if c4 = 'e' then
            some (.bool false, r) else none else none else none else none
        | _ => none
      else if c = '"' then
        (parseStringBody rest).map (fun r => (.str (String.mk r.1), r.2))
      else if c = '[' then
        match rest with
        | [] => none
        | d :: r2 =>
          if d = ']' then some (.arr [], r2)
          else (parseElems fuel (d :: r2)).map (fun r => (.arr r.1, r.2))
      else if c = lbrace then
        match rest with
        | [] => none
        | d :: r2 =>
          if d = rbrace then some (.obj [], r2)
          else (parseMembers fuel (d :: r2)).map (fun r => (.obj r.1, r.2))
      else
        (parseNumber (c :: rest)).map (fun r => (.num r.1, r.2))

/-- Parse the elements of a nonempty array after the opening bracket,
consuming the closing bracket. -/
def parseElems : Nat → List Char → Option (List Value × List Char)
  | 0, _ => none
  | fuel + 1, input =>
    (parseValue fuel input).bind (fun r =>
      match r.2 with
      | [] => none
      | d :: rest2 =>
        if d = ',' then (parseElems fuel rest2).map (fun r2 => (r.1 :: r2.1, r2.2))
        else if d = ']' then some ([r.1], rest2)
        else none)

/-- Parse the members of a nonempty object after the opening brace,
consuming the closing brace. -/
def parseMembers : Nat → List Char → Option (List (String × Value) × List Char)
  | 0, _ => none
  | fuel + 1, input =>
    match input with
    | c :: rest =>
      if c = '"' then
        (parseStringBody rest).bind (fun rk =>
          match rk.2 with
          | [] => none
          | d0 :: rest2 =>
            if d0 = ':' then
              (parseValue fuel rest2).bind (fun rv =>
                match rv.2 with
                | [] => none
                | d :: rest3 =>
                  if d = ',' then
                    (parseMembers fuel rest3).map
                      (fun rm => ((String.mk rk.1, rv.1) :: rm.1, rm.2))
                  else if d = rbrace then some ([(String.mk rk.1, rv.1)], rest3)
                  else none)
            else none)
      else none
    | [] => none
end

/-- JSON.parse: parse one value and require the input to be fully
consumed. -/
def jsonParse (chars : List Char) : Option Value :=
  match parseValue (chars.length + 1) chars with
  | some (v, []) => some v
  | _ => none

/-! ## The canonical encoder: encode, decode, objectRepresentation -/

/-- encode (src/utils.ts): serialize the value with JSON.stringify,
then base64 it with btoa.  btoa throws exactly when some code unit of
the serialized text exceeds 255; in that case the catch branch splits
every code unit into its two bytes and marks the result with a leading
exclamation mark, so btoa always receives single byte units. -/
def encodeUnits (v : Value) : List Nat :=
  let dataString := utf16Encode (stringify v)
  if dataString.all (fun u => u ≤ 255) then btoa dataString
  else 33 :: btoa (splitPairs dataString)

/-- encode's result as a string (all produced units are ASCII). -/
def encode (v : Value) : String := String.mk ((encodeUnits v).map Char.ofNat)

/-- The shared tail of decode's two paths: base64-decode, optionally
reassemble byte pairs into code units (fallback path only), rebuild the
text and run JSON.parse on it. -/
def decodeTail (units : List Nat) (fallback : Bool) : Option Value :=
  (atob units).bind fun bytes =>
    (if fallback then joinPairs bytes else some bytes).bind fun us =>
      (utf16Decode us).bind fun chars => jsonParse chars

/-- decode (src/utils.ts): if the input starts with the exclamation
marker, base64-decode the remainder and reassemble byte pairs into code
units before parsing; otherwise base64-decode directly and parse.  Any
failure (invalid base64, odd byte count, lone surrogate, unparsable
JSON) is an exception, modelled as none. -/
def decode (s : String) : Option Value :=
  match s.data with
  | c :: rest =>
    if c = '!' then decodeTail (utf16Encode rest) true
    else decodeTail (utf16Encode (c :: rest)) false
  | [] => decodeTail [] false

/-- objectRepresentation (src/utils.ts): first pass collects every key
reachable in the structure into a Set (plus the root's empty string
key), the sorted key array then drives a second JSON.stringify as its
replacer array, and the resulting JSON text is passed through encode
(as a string value, so it is quoted again). -/
def objectRepresentation (v : Value) : String :=
  encode (.str (String.mk (stringifyV (some (sortedKeys v)) v)))

/-- The input does not continue with a digit (maximal munch boundary). -/
def notDigitStart (l : List Char) : Prop :=
  match l with
  | [] => True
  | c :: _ => isDigitCU c = false

/-- The value accumulated by parseDigits over a digit list. -/
def digitsVal (acc : Nat) (ds : List Char) : Nat :=
  ds.foldl (fun a c => a * 10 + (c.toNat - 48)) acc

mutual
/-- Fuel measure: enough parse fuel to reparse a serialized value
(shown below to be bounded by the serialized length). -/
def sizeV : Value → Nat
  | .null | .bool _ | .num _ | .str _ => 1
  | .arr xs => 1 + sizeL xs
  | .obj kvs => 1 + sizeM kvs

/-- Fuel measure for array element lists. -/
def sizeL : List Value → Nat
  | [] => 0
  | v :: rest => 1 + sizeV v + sizeL rest

/-- Fuel measure for object member lists. -/
def sizeM : List (String × Value) → Nat
  | [] => 0
  | (_, v) :: rest => 1 + sizeV v + sizeM rest
end

/-- Deep structural equality up to reordering of object member
declaration order, at any nesting depth.  Object members may be
permuted (witnessed by the reordered zipped list mid) and the values
are related recursively; keys are unique as in any JavaScript object. -/
inductive KeyPerm : Value → Value → Prop where
  | null : KeyPerm .null .null
  | bool (b : Bool) : KeyPerm (.bool b) (.bool b)
  | num (n : Int) : KeyPerm (.num n) (.num n)
  | str (s : String) : KeyPerm (.str s) (.str s)
  | arr (ps : List (Value × Value)) :
      (∀ p ∈ ps, KeyPerm p.1 p.2) →
      KeyPerm (.arr (ps.map Prod.fst)) (.arr (ps.map Prod.snd))
  | obj (kvs1 : List (String × Value)) (mid : List (String × Value × Value)) :
      kvs1.Perm (mid.map (fun e => (e.1, e.2.1))) →
      (∀ e ∈ mid, KeyPerm e.2.1 e.2.2) →
      (kvs1.map Prod.fst).Nodup →
      KeyPerm (.obj kvs1) (.obj (mid.map (fun e => (e.1, e.2.2))))

/-! ## JavaScript coercion helpers used by the engine -/

/-- Property lookup on a JavaScript object (objects have unique keys;
first match). -/
def lookupKey : List (String × Value) → String → Option Value
  | [], _ => none
  | (k', v) :: rest, k => if k' = k then some v else lookupKey rest k

/-- Property assignment on a JavaScript object: overwrite in place or
append a new property. -/
def setField : List (String × Value) → String → Value → List (String × Value)
  | [], k, v => [(k, v)]
  | (k', v') :: rest, k, v =>
    if k' = k then (k, v) :: rest else (k', v') :: setField rest k v

mutual
/-- JavaScript ToString on a structured value (the fragment relevant to
number coercion): arrays join their elements with commas, plain objects
print as the generic object tag. -/
def jsToString : Value → String
  | .null => "null"
  | .bool true => "true"
  | .bool false => "false"
  | .num n => String.mk (intToChars n)
  | .str s => s
  | .arr xs => String.intercalate "," (jsToStringElems xs)
  | .obj _ => "[object Object]"

/-- Array.prototype.join's element conversion: null (and undefined)
become the empty string, everything else its ToString. -/
def jsToStringElems : List Value → List String
  | [] => []
  | v :: rest =>
    (match v with
     | .null => ""
     | w => jsToString w) :: jsToStringElems rest
end

/-- A JavaScript whitespace character as trimmed by StringToNumber. -/
def isJsSpace (c : Char) : Bool := c.toNat = 32 ∨ (9 ≤ c.toNat ∧ c.toNat ≤ 13) ∨ c.toNat = 160

/-- ECMAScript StringToNumber restricted to the integer fragment of the
model: trimmed empty string is zero, an optional sign followed by
decimal digits is the obvious integer, anything else is NaN (none).
(Fractions, exponents, hex and Infinity literals are outside the
integer number model.) -/
def stringToNumber (s : String) : Option Int :=
  let t := ((s.data.dropWhile isJsSpace).reverse.dropWhile isJsSpace).reverse
  match t with
  | [] => some 0
  | c :: ds =>
    if c = '-' then
      if ds ≠ [] ∧ ds.all isDigitCU then some (-(digitsVal 0 ds : Int)) else none
    else if c = '+' then
      if ds ≠ [] ∧ ds.all isDigitCU then some ((digitsVal 0 ds : Int)) else none
    else if (c :: ds).all isDigitCU then some ((digitsVal 0 (c :: ds) : Int)) else none

/-- ECMAScript ToNumber on an optional (possibly undefined) value; none
stands for NaN.  undefined is NaN, null is 0, booleans are 0 or 1,
strings parse via StringToNumber, arrays and objects coerce through
their ToString. -/
def toNumber : Option Value → Option Int
  | none => none
  | some .null => some 0
  | some (.bool b) => some (if b then 1 else 0)
  | some (.num n) => some n
  | some (.str s) => stringToNumber s
  | some (.arr xs) => stringToNumber (jsToString (.arr xs))
  | some (.obj kvs) => stringToNumber (jsToString (.obj kvs))

/-- The global isFinite as applied by the engine: ToNumber coercion
followed by a finiteness test (every representable model number is
finite). -/
def jsIsFinite (x : Option Value) : Bool := (toNumber x).isSome

/-- Does `typeof x` evaluate to the string "object"?  True for null,
arrays and objects; false for undefined (none) and other primitives. -/
def jsTypeofObject : Option Value → Bool
  | some .null => true
  | some (.arr _) => true
  | some (.obj _) => true
  | _ => false

/-- Property access d.k as an expression that may throw: reading a
property of null (or undefined) raises a TypeError; objects yield the
property value or undefined; other primitives yield undefined. -/
def getFieldE : Value → String → Except Unit (Option Value)
  | .null, _ => .error ()
  | .obj kvs, k => .ok (lookupKey kvs k)
  | _, _ => .ok none

/-! ## Well-formedness: values representable as JavaScript data -/

/-- No duplicates in a key list (JavaScript object keys are unique). -/
def nodupKeys : List String → Bool
  | [] => true
  | k :: rest => !(rest.contains k) && nodupKeys rest

mutual
/-- A Value is representable as JavaScript data when every object in it
has pairwise distinct keys. -/
def wfV : Value → Bool
  | .arr xs => wfL xs
  | .obj kvs => nodupKeys (kvs.map Prod.fst) && wfM kvs
  | _ => true

/-- Well-formedness of array elements. -/
def wfL : List Value → Bool
  | [] => true
  | v :: rest => wfV v && wfL rest

/-- Well-formedness of object member values. -/
def wfM : List (String × Value) → Bool
  | [] => true
  | (_, v) :: rest => wfV v && wfM rest
end

/-! ## The plain single-byte encoding (pre-unicode encode) -/

/-- Plain single-byte base64 of already serialized text: btoa applied
directly to the code units, as the pre-unicode encode (the version
without the fallback) produced for every input.  Meaningful when every
unit fits in one byte. -/
def plainBase64 (text : List Char) : String :=
  String.mk ((btoa (utf16Encode text)).map Char.ofNat)

/-! ## The cached-load engine (src/store.ts) -/

/-- Default staleness threshold: one day in milliseconds. -/
def DEFAULT_MAX_AGE : Int := 86400000

/-- The caching-relevant configuration of defineCachedStore: the store
id plus the optional CachingOptions fields.  The checkValidity and
refresh functions are passed separately (they are arbitrary caller
code); hasStorage is false when the caller explicitly passes a null
storage, disabling persistence. -/
structure CachingConfig where
  id : String
  keyPref : Option String
  refreshSpecificKey : Option Bool
  maxAge : Option Int
  useCheckValidity : Bool
  loadingKey : Option String
  hasStorage : Bool

/-- Truthiness of the configured loadingKey, as tested by the source's
if (cachingOptions?.loadingKey): absent or empty string is falsy. -/
def loadingKeyTruthy (cfg : CachingConfig) : Bool :=
  match cfg.loadingKey with
  | some k => k ≠ ""
  | none => false

/-- Is the named optional field a boolean field of the given state
(typeof state()[k] === 'boolean')? -/
def isBoolField (defaults : List (String × Value)) (lk : Option String) : Bool :=
  match lk with
  | some k =>
    match lookupKey defaults k with
    | some (.bool _) => true
    | _ => false
  | none => false

/-- The construction-time validation of defineCachedStore: a truthy
loadingKey that is the reserved name computedCacheKey or does not name
a boolean field of the initial state makes construction throw; the
store definition is only produced otherwise. -/
def defineCachedStoreInit (cfg : CachingConfig) (defaults : List (String × Value)) :
    Except String Unit :=
  if loadingKeyTruthy cfg &&
      (decide (cfg.loadingKey = some "computedCacheKey") ||
        !isBoolField defaults cfg.loadingKey) then
    .error "Failed to initialize store: invalid loading key"
  else
    .ok ()

/-- Observable events of one load call, in order: the state reset, a
decode of a raw cache entry, a write to the loading flag field, the
application of a cache hit to the state, the invocation of the refresh
routine, and the storage writes/removals. -/
inductive LoadEvent where
  | resetState
  | decodeAttempt
  | setLoading (b : Bool)
  | applyHit
  | refreshCall
  | storeSet (key : String)
  | storeRemove (key : String)
deriving DecidableEq

/-- Storage contents: an association of keys to raw string values
(the localStorage string map). -/
abbrev Storage := List (String × String)

/-- Storage.getItem. -/
def lookupStorage : Storage → String → Option String
  | [], _ => none
  | (k', v) :: rest, k => if k' = k then some v else lookupStorage rest k

/-- Storage.setItem: overwrite or append. -/
def setItem : Storage → String → String → Storage
  | [], k, v => [(k, v)]
  | (k', v') :: rest, k, v =>
    if k' = k then (k, v) :: rest else (k', v') :: setItem rest k v

/-- Storage.removeItem: drop every binding of the key. -/
def removeItem (s : Storage) (k : String) : Storage :=
  s.filter (fun e => !(e.1 = k : Bool))

/-- String.prototype.startsWith on the character level. -/
def charsStartWith : List Char → List Char → Bool
  | _, [] => true
  | [], _ :: _ => false
  | c :: cs, p :: ps => c = p && charsStartWith cs ps

/-- The cache key suffix: the canonical representation of the refresh
options under per-call keying (the default), or the shared constant
"0". -/
def cacheKeySuffix (cfg : CachingConfig) (opts : Value) : String :=
  if cfg.refreshSpecificKey.getD true then objectRepresentation opts else "0"

/-- The full storage address [keyPrefix, id, suffix].join('-'). -/
def computedCacheKeyOf (cfg : CachingConfig) (opts : Value) : String :=
  (cfg.keyPref.getD "store") ++ "-" ++ cfg.id ++ "-" ++ cacheKeySuffix cfg opts

/-- The address prefix used by clearCache's startsWith filter. -/
def clearPref (cfg : CachingConfig) : String :=
  (cfg.keyPref.getD "store") ++ "-" ++ cfg.id ++ "-"

/-- The setLoadingKey helper: a single-field patch of the loading flag,
performed only when a loadingKey is configured (truthy). -/
def patchLoading (cfg : CachingConfig) (st : List (String × Value)) (b : Bool) :
    List (String × Value) :=
  if loadingKeyTruthy cfg then setField st (cfg.loadingKey.getD "") (.bool b) else st

/-- The loading flag write events emitted by setLoadingKey. -/
def loadingEvents (cfg : CachingConfig) (b : Bool) : List LoadEvent :=
  if loadingKeyTruthy cfg then [.setLoading b] else []

/-- Array indices as string keys, for for-in iteration over an array
patch. -/
def indexPairs (i : Nat) : List Value → List (String × Value)
  | [] => []
  | v :: rest => (String.mk (natToChars i), v) :: indexPairs (i + 1) rest

mutual
/-- Pinia's mergeReactiveObjects applied member by member. -/
def applyMembers (target : List (String × Value)) :
    List (String × Value) → List (String × Value)
  | [] => target
  | (k, pv) :: rest => applyMembers (applyOne target k pv) rest

/-- One member of a patch: when both the existing field and the patch
value are plain objects they are merged recursively, otherwise the
patch value replaces the field. -/
def applyOne (target : List (String × Value)) (k : String) :
    Value → List (String × Value)
  | .obj pkvs =>
    match lookupKey target k with
    | some (.obj tkvs) => setField target k (.obj (applyMembers tkvs pkvs))
    | _ => setField target k (.obj pkvs)
  | pv => setField target k pv
end

/-- store.$patch with a decoded cache state: a plain object patch is
deep merged; an array patch is iterated by for-in over its index keys;
a null patch iterates nothing and is a no-op. -/
def applyPatch (target : List (String × Value)) : Value → List (String × Value)
  | .obj pkvs => applyMembers target pkvs
  | .arr xs => applyMembers target (indexPairs 0 xs)
  | _ => target

/-- Outcome of getExistingCacheData: the state of a valid fresh entry,
or none for a miss; plus whether decode was invoked. -/
structure LookupResult where
  hit : Option Value
  events : List LoadEvent

/-- The validation chain applied to a decoded entry, in source order:
access data.timestamp (throws on null, caught by the surrounding try),
the isFinite coercion check, the typeof data.state check, the staleness
comparison (with ToNumber coercion of the timestamp), and the optional
caller-supplied validity callback. -/
def lookupChecks (cfg : CachingConfig) (checkValidity : Value → Value → Bool)
    (payload : Value) (now : Int) (d : Value) : Option Value :=
  match getFieldE d "timestamp" with
  | .error _ => none
  | .ok ts =>
    if !jsIsFinite ts then none
    else
      match getFieldE d "state" with
      | .error _ => none
      | .ok none => none
      | .ok (some stv) =>
        if !jsTypeofObject (some stv) then none
        else
          match toNumber ts with
          | none => none
          | some tsNum =>
            if tsNum < now - cfg.maxAge.getD DEFAULT_MAX_AGE then none
            else if cfg.useCheckValidity && !(checkValidity stv payload) then none
            else some stv

/-- getExistingCacheData: a falsy computed key or an absent entry is an
immediate miss without decoding; the source's rawCacheData || null also
treats an empty stored string as absent.  Otherwise the entry is
decoded (failures caught as a miss) and validated. -/
def getExistingCacheData (cfg : CachingConfig) (checkValidity : Value → Value → Bool)
    (key : String) (payload : Value) (storage : Storage) (now : Int) : LookupResult :=
  if key = "" then ⟨none, []⟩
  else
    match (if cfg.hasStorage then lookupStorage storage key else none) with
    | none => ⟨none, []⟩
    | some s =>
      if s = "" then ⟨none, []⟩
      else
        match decode s with
        | none => ⟨none, [.decodeAttempt]⟩
        | some d => ⟨lookupChecks cfg checkValidity payload now d, [.decodeAttempt]⟩

/-- Result of one $load call: the final data state, the computed cache
key (stored on the instance), the final storage contents, the error
rethrown to the caller if any, and the ordered event trace. -/
structure LoadResult where
  data : List (String × Value)
  computedCacheKey : String
  storage : Storage
  thrown : Option String
  events : List LoadEvent

/-- The error message wrapping of the refresh failure path. -/
def wrapError (id msg : String) : String :=
  "Error while refreshing cache " ++ id ++ (if msg = "" then "." else ": " ++ msg)

/-- $flushCache: encode the current state with the current time under
the computed key; a no-op without a computed key or storage backend. -/
def flushCacheRun (cfg : CachingConfig) (key : String) (st : List (String × Value))
    (storage : Storage) (now : Int) : Storage × List LoadEvent :=
  if key = "" then (storage, [])
  else if cfg.hasStorage then
    (setItem storage key (encode (.obj [("state", .obj st), ("timestamp", .num now)])),
      [.storeSet key])
  else (storage, [])

/-- One $load(options, payload) call.  The refresh routine is the
caller's function with options and payload already applied; it receives
the state it may mutate and reports the state it left behind together
with an optional rejection message (JavaScript mutations survive a
throw, so the mutated state is returned in both cases). -/
def loadRun (cfg : CachingConfig) (checkValidity : Value → Value → Bool)
    (refresh : List (String × Value) → List (String × Value) × Option String)
    (defaults : List (String × Value)) (opts payload : Value)
    (storage0 : Storage) (now : Int) : LoadResult :=
  let st0 := defaults
  let key := computedCacheKeyOf cfg opts
  let lk := getExistingCacheData cfg checkValidity key payload storage0 now
  match lk.hit with
  | some stv =>
    let st1 := applyPatch st0 stv
    let st2 := patchLoading cfg st1 false
    ⟨st2, key, storage0, none,
      [.resetState] ++ lk.events ++ [.applyHit] ++ loadingEvents cfg false⟩
  | none =>
    let st1 := patchLoading cfg st0 true
    match refresh st1 with
    | (st2, some msg) =>
      let storage1 := if cfg.hasStorage then removeItem storage0 key else storage0
      let st3 := patchLoading cfg st2 false
      ⟨st3, key, storage1, some (wrapError cfg.id msg),
        [.resetState] ++ lk.events ++ loadingEvents cfg true ++ [.refreshCall] ++
          (if cfg.hasStorage then [.storeRemove key] else []) ++ loadingEvents cfg false⟩
    | (st2, none) =>
      let fl := flushCacheRun cfg key st2 storage0 now
      let st3 := patchLoading cfg st2 false
      ⟨st3, key, fl.1, none,
        [.resetState] ++ lk.events ++ loadingEvents cfg true ++ [.refreshCall] ++
          fl.2 ++ loadingEvents cfg false⟩

/-- $clearCache: remove every storage entry whose key starts with
keyPrefix-id-, then reset the state to its defaults. -/
def clearCacheRun (cfg : CachingConfig) (defaults : List (String × Value))
    (storage0 : Storage) : List (String × Value) × Storage :=
  let storage1 :=
    if cfg.hasStorage then
      storage0.filter (fun e => !charsStartWith e.1.data (clearPref cfg).data)
    else storage0
  (defaults, storage1)

/-! ## Concrete stores, entries and runs used as examples -/

def trueCk : Value → Value → Bool := fun _ _ => true

def idRefresh : List (String × Value) → List (String × Value) × Option String :=
  fun st => (st, none)

def v2w : Value := .obj [("a", .str "π€😀"), ("b", .arr [.num (-3), .null]), ("c", .bool true)]

def v3w : Value := .obj [("hello", .str "world")]

def cfg4c : CachingConfig := ⟨"teststore", none, none, none, false, none, true⟩

def entry4c : Value :=
  .obj [("state", .obj [("x", .num 7)]), ("timestamp", .str "99999999999999")]

def key4c : String := computedCacheKeyOf cfg4c .null

def r4c : LoadResult :=
  loadRun cfg4c trueCk idRefresh [("x", .num 0)] .null .null
    [(key4c, encode entry4c)] 1700000000000

def cfg5w : CachingConfig := ⟨"loadingstore", none, none, none, false, some "loading", true⟩

def key5w : String := computedCacheKeyOf cfg5w .null

def defs5w : List (String × Value) := [("loading", .bool false)]

def cfg6c : CachingConfig := ⟨"failstore", none, none, none, false, none, true⟩

def rf6c : List (String × Value) → List (String × Value) × Option String :=
  fun st => (setField st "x" (.num 5), some "boom")

def r6c : LoadResult :=
  loadRun cfg6c trueCk rf6c [("x", .num 0)] .null .null [] 1000

def cfg6w : CachingConfig := ⟨"failwit", none, none, none, false, some "loading", true⟩

def defs6w : List (String × Value) := [("x", .num 0), ("loading", .bool false)]

def rf6w : List (String × Value) → List (String × Value) × Option String :=
  fun st => (setField st "x" (.num 9), some "boom")

def st6w : List (String × Value) := [("x", .num 9), ("loading", .bool true)]

def cfg7c : CachingConfig := ⟨"stringstamp", none, none, none, false, none, true⟩

def entry7c : Value :=
  .obj [("state", .obj [("y", .bool true)]), ("timestamp", .str "88888888888888")]

def key7c : String := computedCacheKeyOf cfg7c .null

def r7c : LoadResult :=
  loadRun cfg7c trueCk idRefresh [("y", .bool false)] .null .null
    [(key7c, encode entry7c)] 1700000000000

def cfg7w : CachingConfig := ⟨"corruptwit", none, none, none, false, none, true⟩

def key7w : String := computedCacheKeyOf cfg7w .null

def r7w : LoadResult :=
  loadRun cfg7w trueCk idRefresh [] .null .null [(key7w, "%%%")] 1000

def cfgA8 : CachingConfig := ⟨"a", none, none, none, false, none, true⟩

def cfgB8 : CachingConfig := ⟨"b", some "store-a", some false, none, false, none, true⟩

def keyB8 : String := computedCacheKeyOf cfgB8 .null

def storage8 : Storage := [(keyB8, "otherdata")]

def cfg8w : CachingConfig := ⟨"clearwit", some "p", none, none, false, none, true⟩

def storage8w : Storage := [("p-clearwit-0", "mine"), ("q-other-0", "theirs")]

def cfg9w : CachingConfig := ⟨"badstore", none, none, none, false, some "loading", true⟩

def defaults9w : List (String × Value) := [("loading", .num 0)]

def cfg10w : CachingConfig := ⟨"emptystore", none, none, none, false, none, true⟩

def key10w : String := computedCacheKeyOf cfg10w .null

def r10w : LoadResult :=
  loadRun cfg10w trueCk idRefresh [] .null .null [(key10w, "")] 1000

/-! ## Basic character facts -/

theorem char_toNat_ofNat {n : Nat} (h : Nat.isValidChar n) : (Char.ofNat n).toNat = n := by
  unfold Char.ofNat
  rw [dif_pos h]
  unfold Char.ofNatAux Char.toNat
  simp [UInt32.toNat]

theorem char_toNat_ofNat_lt {n : Nat} (h : n < 55296) : (Char.ofNat n).toNat = n :=
  char_toNat_ofNat (Or.inl h)

theorem char_toNat_inj {a b : Char} (h : a.toNat = b.toNat) : a = b := by
  apply Char.ext
  unfold Char.toNat at h
  exact UInt32.toNat.inj h

theorem char_isValid (c : Char) : Nat.isValidChar c.toNat := c.valid

theorem char_toNat_lt (c : Char) : c.toNat < 1114112 := by
  rcases char_isValid c with h | h
  · omega
  · omega

/-! ## Round trip of the decimal number rendering -/


theorem digitChar_isDigit {d : Nat} (h : d < 10) : isDigitCU (digitChar d) = true := by
  unfold digitChar isDigitCU
  rw [char_toNat_ofNat_lt (by omega)]
  simp
  omega

theorem digitChar_toNat {d : Nat} (h : d < 10) : (digitChar d).toNat = 48 + d := by
  unfold digitChar
  exact char_toNat_ofNat_lt (by omega)

theorem natDigitsRev_digits {fuel n : Nat} :
    ∀ c ∈ natDigitsRev fuel n, isDigitCU c = true := by
  induction fuel generalizing n with
  | zero => intro c hc; simp [natDigitsRev] at hc
  | succ f ih =>
    intro c hc
    unfold natDigitsRev at hc
    split at hc
    · simp at hc
    · rcases List.mem_cons.mp hc with rfl | h
      · exact digitChar_isDigit (Nat.mod_lt _ (by omega))
      · exact ih _ h


theorem parseDigits_spec (ds : List Char) (rest : List Char) (acc : Nat)
    (hds : ∀ c ∈ ds, isDigitCU c = true) (hrest : notDigitStart rest) :
    parseDigits acc (ds ++ rest) = (digitsVal acc ds, rest) := by
  induction ds generalizing acc with
  | nil =>
    cases rest with
    | nil => rfl
    | cons c cs =>
      unfold notDigitStart at hrest
      simp [parseDigits, digitsVal, hrest]
  | cons d ds' ih =>
    have hd : isDigitCU d = true := hds d (List.mem_cons_self _ _)
    simp only [List.cons_append, parseDigits, hd, if_pos, digitsVal, List.foldl_cons]
    exact ih _ (fun c hc => hds c (List.mem_cons_of_mem _ hc))

theorem digitsVal_append (acc : Nat) (xs ys : List Char) :
    digitsVal acc (xs ++ ys) = digitsVal (digitsVal acc xs) ys := by
  simp [digitsVal, List.foldl_append]

theorem digitsVal_natDigitsRev {fuel n : Nat} (h : n ≤ fuel) (acc : Nat) :
    digitsVal acc (natDigitsRev fuel n).reverse =
      acc * 10 ^ (natDigitsRev fuel n).length + n := by
  induction fuel generalizing n acc with
  | zero =>
    have : n = 0 := by omega
    subst this
    simp [natDigitsRev, digitsVal]
  | succ f ih =>
    by_cases h0 : n = 0
    · subst h0; simp [natDigitsRev, digitsVal]
    · have hdiv : n / 10 ≤ f := by omega
      unfold natDigitsRev
      rw [if_neg h0]
      simp only [List.reverse_cons, List.length_cons]
      rw [digitsVal_append, ih hdiv]
      have hd : (digitChar (n % 10)).toNat = 48 + n % 10 :=
        digitChar_toNat (Nat.mod_lt _ (by omega))
      simp only [digitsVal, List.foldl_cons, List.foldl_nil, hd]
      rw [pow_succ]
      have h1 : acc * (10 ^ (natDigitsRev f (n / 10)).length * 10) =
          acc * 10 ^ (natDigitsRev f (n / 10)).length * 10 := by ring
      rw [h1]
      omega

theorem natToChars_digits (n : Nat) : ∀ c ∈ natToChars n, isDigitCU c = true := by
  intro c hc
  unfold natToChars at hc
  split at hc
  · simp at hc
    subst hc
    decide
  · exact natDigitsRev_digits c (List.mem_reverse.mp hc)

theorem natToChars_ne_nil (n : Nat) : natToChars n ≠ [] := by
  unfold natToChars
  split
  · simp
  · intro h
    rw [List.reverse_eq_nil_iff] at h
    unfold natDigitsRev at h
    split at h
    · omega
    · next h2 => simp at h
      
theorem digitsVal_natToChars (n : Nat) : digitsVal 0 (natToChars n) = n := by
  unfold natToChars
  split
  · next h => subst h; decide
  · next h =>
    rw [digitsVal_natDigitsRev (Nat.le_refl n)]
    simp

theorem parseDigits_natToChars (n : Nat) (rest : List Char) (hrest : notDigitStart rest) :
    parseDigits 0 (natToChars n ++ rest) = (n, rest) := by
  rw [parseDigits_spec _ _ _ (natToChars_digits n) hrest, digitsVal_natToChars]

theorem isDigit_ne_minus {c : Char} (h : isDigitCU c = true) : (c = '-') = False := by
  simp only [eq_iff_iff, iff_false]
  intro hc
  subst hc
  simp [isDigitCU] at h

theorem parseNumber_intToChars (i : Int) (rest : List Char) (hrest : notDigitStart rest) :
    parseNumber (intToChars i ++ rest) = some (i, rest) := by
  unfold intToChars
  split
  · next hneg =>
    obtain ⟨d, ds, hds⟩ : ∃ d ds, natToChars i.natAbs = d :: ds := by
      cases h : natToChars i.natAbs with
      | nil => exact absurd h (natToChars_ne_nil _)
      | cons d ds => exact ⟨d, ds, rfl⟩
    have hd : isDigitCU d = true := by
      apply natToChars_digits i.natAbs
      rw [hds]; exact List.mem_cons_self _ _
    have hstep : ('-' :: natToChars i.natAbs) ++ rest = '-' :: d :: (ds ++ rest) := by
      rw [hds]; simp
    rw [hstep]
    have hback : d :: (ds ++ rest) = natToChars i.natAbs ++ rest := by
      rw [hds]; simp
    simp only [parseNumber, if_pos rfl, hd, if_true]
    rw [hback, parseDigits_natToChars _ _ hrest]
    have : -(i.natAbs : Int) = i := by omega
    rw [this]
  · next hpos =>
    obtain ⟨d, ds, hds⟩ : ∃ d ds, natToChars i.toNat = d :: ds := by
      cases h : natToChars i.toNat with
      | nil => exact absurd h (natToChars_ne_nil _)
      | cons d ds => exact ⟨d, ds, rfl⟩
    have hd : isDigitCU d = true := by
      apply natToChars_digits i.toNat
      rw [hds]; exact List.mem_cons_self _ _
    have hstep : natToChars i.toNat ++ rest = d :: (ds ++ rest) := by
      rw [hds]; simp
    rw [hstep]
    have hback : d :: (ds ++ rest) = natToChars i.toNat ++ rest := hstep.symm
    have hnm : (d = '-') = False := isDigit_ne_minus hd
    simp only [parseNumber, hnm, if_false, hd, if_true]
    rw [hback, parseDigits_natToChars _ _ hrest]
    have : (i.toNat : Int) = i := by omega
    simp [this]

/-! ## Round trip of the string escaping -/

theorem hexVal_hexChar {d : Nat} (h : d < 16) : hexVal (hexChar d) = some d := by
  unfold hexChar hexVal
  by_cases h10 : d < 10
  · rw [if_pos h10, char_toNat_ofNat_lt (by omega), if_pos (by omega)]
    congr 1
    omega
  · rw [if_neg h10, char_toNat_ofNat_lt (by omega), if_neg (by omega), if_pos (by omega)]
    congr 1
    omega

theorem parseStringBody_escape (s rest : List Char) :
    parseStringBody (s.flatMap jsonEscapeChar ++ '"' :: rest) = some (s, rest) := by
  induction s with
  | nil =>
    simp only [List.flatMap_nil, List.nil_append]
    unfold parseStringBody
    simp
  | cons c s' ih =>
    simp only [List.flatMap_cons, List.append_assoc]
    by_cases h1 : c = '"'
    · subst h1
      have he : jsonEscapeChar '"' = ['\\', '"'] := by simp [jsonEscapeChar]
      rw [he]
      simp only [List.cons_append, List.nil_append]
      unfold parseStringBody
      simp [ih]
    by_cases h2 : c = '\\'
    · subst h2
      have he : jsonEscapeChar '\\' = ['\\', '\\'] := by simp [jsonEscapeChar]
      rw [he]
      simp only [List.cons_append, List.nil_append]
      unfold parseStringBody
      simp [ih]
    by_cases h3 : c.toNat = 8
    · have hc : c = Char.ofNat 8 := char_toNat_inj (by rw [h3, char_toNat_ofNat_lt (by omega)])
      subst hc
      have he : jsonEscapeChar (Char.ofNat 8) = ['\\', 'b'] := by simp [jsonEscapeChar]
      rw [he]
      simp only [List.cons_append, List.nil_append]
      unfold parseStringBody
      simp [ih]
    by_cases h4 : c.toNat = 9
    · have hc : c = Char.ofNat 9 := char_toNat_inj (by rw [h4, char_toNat_ofNat_lt (by omega)])
      subst hc
      have he : jsonEscapeChar (Char.ofNat 9) = ['\\', 't'] := by simp [jsonEscapeChar]
      rw [he]
      simp only [List.cons_append, List.nil_append]
      unfold parseStringBody
      simp [ih]
    by_cases h5 : c.toNat = 10
    · have hc : c = Char.ofNat 10 := char_toNat_inj (by rw [h5, char_toNat_ofNat_lt (by omega)])
      subst hc
      have he : jsonEscapeChar (Char.ofNat 10) = ['\\', 'n'] := by simp [jsonEscapeChar]
      rw [he]
      simp only [List.cons_append, List.nil_append]
      unfold parseStringBody
      simp [ih]
    by_cases h6 : c.toNat = 12
    · have hc : c = Char.ofNat 12 := char_toNat_inj (by rw [h6, char_toNat_ofNat_lt (by omega)])
      subst hc
      have he : jsonEscapeChar (Char.ofNat 12) = ['\\', 'f'] := by simp [jsonEscapeChar]
      rw [he]
      simp only [List.cons_append, List.nil_append]
      unfold parseStringBody
      simp [ih]
    by_cases h7 : c.toNat = 13
    · have hc : c = Char.ofNat 13 := char_toNat_inj (by rw [h7, char_toNat_ofNat_lt (by omega)])
      subst hc
      have he : jsonEscapeChar (Char.ofNat 13) = ['\\', 'r'] := by simp [jsonEscapeChar]
      rw [he]
      simp only [List.cons_append, List.nil_append]
      unfold parseStringBody
      simp [ih]
    by_cases h8 : c.toNat < 32
    · have he : jsonEscapeChar c =
          ['\\', 'u', '0', '0', hexChar (c.toNat / 16), hexChar (c.toNat % 16)] := by
        simp [jsonEscapeChar, h1, h2, h3, h4, h5, h6, h7, h8]
      rw [he]
      simp only [List.cons_append, List.nil_append]
      unfold parseStringBody
      simp only [hexVal_hexChar (show c.toNat / 16 < 16 by omega),
        hexVal_hexChar (show c.toNat % 16 < 16 by omega)]
      simp [hexVal, ih]
      rw [show c.toNat / 16 * 16 + c.toNat % 16 = c.toNat by omega, Char.ofNat_toNat]
    · have he : jsonEscapeChar c = [c] := by
        simp [jsonEscapeChar, h1, h2, h3, h4, h5, h6, h7, h8]
      rw [he]
      simp only [List.cons_append, List.nil_append]
      unfold parseStringBody
      simp [h1, h2, h8, ih]

/-! ## Round trip of serialization and parsing -/


theorem sizeV_pos (v : Value) : 1 ≤ sizeV v := by
  cases v <;> simp [sizeV]

theorem char_ne_false {c d : Char} (h : c.toNat ≠ d.toNat) : (c = d) = False :=
  eq_false (fun he => h (by rw [he]))

theorem notDigitStart_cons {c : Char} (h : isDigitCU c = false) (l : List Char) :
    notDigitStart (c :: l) := h

theorem numStart_dispatch {c : Char} (h : isDigitCU c = true ∨ c = '-') :
    (c = 'n') = False ∧ (c = 't') = False ∧ (c = 'f') = False ∧ (c = '"') = False ∧
    (c = '[') = False ∧ (c = lbrace) = False := by
  have hc : c.toNat = 45 ∨ (48 ≤ c.toNat ∧ c.toNat ≤ 57) := by
    rcases h with h | h
    · right
      simpa [isDigitCU] using h
    · left
      subst h
      rfl
  refine ⟨?_, ?_, ?_, ?_, ?_, ?_⟩ <;> apply char_ne_false
  · rw [show ('n' : Char).toNat = 110 from rfl]; omega
  · rw [show ('t' : Char).toNat = 116 from rfl]; omega
  · rw [show ('f' : Char).toNat = 102 from rfl]; omega
  · rw [show ('"' : Char).toNat = 34 from rfl]; omega
  · rw [show ('[' : Char).toNat = 91 from rfl]; omega
  · rw [show lbrace.toNat = 123 from rfl]; omega

theorem intToChars_head (n : Int) :
    ∃ c cs, intToChars n = c :: cs ∧ (isDigitCU c = true ∨ c = '-') := by
  unfold intToChars
  split
  · exact ⟨'-', natToChars n.natAbs, rfl, Or.inr rfl⟩
  · obtain ⟨c, cs, hcs⟩ : ∃ c cs, natToChars n.toNat = c :: cs := by
      cases h : natToChars n.toNat with
      | nil => exact absurd h (natToChars_ne_nil _)
      | cons c cs => exact ⟨c, cs, rfl⟩
    refine ⟨c, cs, hcs, Or.inl ?_⟩
    apply natToChars_digits n.toNat
    rw [hcs]
    exact List.mem_cons_self _ _

theorem stringify_head (props : Option (List String)) (v : Value) :
    ∃ c t, stringifyV props v = c :: t ∧ (c = ']') = False ∧ (c = rbrace) = False := by
  cases v with
  | null => exact ⟨'n', _, rfl, by simp, by simp [rbrace]⟩
  | bool b =>
    cases b with
    | true => exact ⟨'t', _, rfl, by simp, by simp [rbrace]⟩
    | false => exact ⟨'f', _, rfl, by simp, by simp [rbrace]⟩
  | num n =>
    obtain ⟨c, cs, hcs, hstart⟩ := intToChars_head n
    refine ⟨c, cs, hcs, ?_, ?_⟩ <;> apply char_ne_false
    · rcases hstart with h | h
      · simp [isDigitCU] at h
        rw [show (']' : Char).toNat = 93 from rfl]
        omega
      · subst h
        rw [show ('-' : Char).toNat = 45 from rfl, show (']' : Char).toNat = 93 from rfl]
        omega
    · rcases hstart with h | h
      · simp [isDigitCU] at h
        rw [show rbrace.toNat = 125 from rfl]
        omega
      · subst h
        rw [show ('-' : Char).toNat = 45 from rfl, show rbrace.toNat = 125 from rfl]
        omega
  | str s => exact ⟨'"', _, rfl, by simp, by simp [rbrace]⟩
  | arr xs => exact ⟨'[', _, rfl, by simp, by simp [rbrace]⟩
  | obj kvs => exact ⟨lbrace, _, rfl, by simp [lbrace], by simp [lbrace, rbrace]⟩

theorem joinComma_cons_append (p : List Char) (ps : List (List Char)) (tail : List Char) :
    ∃ T, joinComma (p :: ps) ++ tail = p ++ T := by
  cases ps with
  | nil => exact ⟨tail, rfl⟩
  | cons q qs => exact ⟨',' :: joinComma (q :: qs) ++ tail, by simp [joinComma]⟩

theorem joinComma_single (p : List Char) : joinComma [p] = p := rfl

theorem joinComma_cons2 (p q : List Char) (ps : List (List Char)) :
    joinComma (p :: q :: ps) = p ++ ',' :: joinComma (q :: ps) := rfl

set_option maxHeartbeats 2000000 in
theorem parse_stringify (fuel : Nat) :
    (∀ v rest, sizeV v ≤ fuel → notDigitStart rest →
      parseValue fuel (stringifyV none v ++ rest) = some (v, rest)) ∧
    (∀ kvs rest, kvs ≠ [] → sizeM kvs ≤ fuel → notDigitStart rest →
      parseMembers fuel
        (joinComma ((stringifyMembers none kvs).map
          (fun e => jsonQuote e.1.data ++ ':' :: e.2)) ++ rbrace :: rest) =
        some (kvs, rest)) ∧
    (∀ xs rest, xs ≠ [] → sizeL xs ≤ fuel → notDigitStart rest →
      parseElems fuel (joinComma (stringifyElems none xs) ++ ']' :: rest) =
        some (xs, rest)) := by
  induction fuel with
  | zero =>
    refine ⟨?_, ?_, ?_⟩
    · intro v rest hs _
      have := sizeV_pos v
      omega
    · intro kvs rest hne hs _
      cases kvs with
      | nil => exact absurd rfl hne
      | cons m ms =>
        obtain ⟨k, v⟩ := m
        simp [sizeM] at hs
    · intro xs rest hne hs _
      cases xs with
      | nil => exact absurd rfl hne
      | cons x xs' => simp [sizeL] at hs
  | succ f ih =>
    obtain ⟨ihP, ihR, ihQ⟩ := ih
    refine ⟨?_, ?_, ?_⟩
    · intro v rest hs hrest
      cases v with
      | null =>
        simp only [stringifyV, List.cons_append, List.nil_append]
        rw [parseValue.eq_def]
        simp
      | bool b =>
        cases b with
        | true =>
          simp only [stringifyV, List.cons_append, List.nil_append]
          rw [parseValue.eq_def]
          simp
        | false =>
          simp only [stringifyV, List.cons_append, List.nil_append]
          rw [parseValue.eq_def]
          simp
      | num n =>
        obtain ⟨c, cs, hcs, hstart⟩ := intToChars_head n
        obtain ⟨d1, d2, d3, d4, d5, d6⟩ := numStart_dispatch hstart
        simp only [stringifyV]
        rw [hcs, List.cons_append]
        rw [parseValue.eq_def]
        simp only [d1, d2, d3, d4, d5, d6, if_false]
        rw [show c :: (cs ++ rest) = intToChars n ++ rest by rw [hcs, List.cons_append]]
        rw [parseNumber_intToChars n rest hrest]
        rfl
      | str s =>
        simp only [stringifyV, jsonQuote, List.cons_append, List.append_assoc,
          List.singleton_append]
        rw [parseValue.eq_def]
        simp only [show (('"' : Char) = 'n') = False by simp,
          show (('"' : Char) = 't') = False by simp,
          show (('"' : Char) = 'f') = False by simp, if_false, if_pos rfl, if_true,
          List.nil_append]
        rw [parseStringBody_escape s.data rest]
        rfl
      | arr xs =>
        cases xs with
        | nil =>
          simp only [stringifyV, stringifyElems, joinComma, List.cons_append,
            List.nil_append]
          rw [parseValue.eq_def]
          simp
        | cons x xs' =>
          have hsz : sizeL (x :: xs') ≤ f := by
            simp only [sizeV] at hs
            omega
          obtain ⟨c, t, hct, hc1, hc2⟩ := stringify_head none x
          obtain ⟨T, hT⟩ :=
            joinComma_cons_append (stringifyV none x)
              (stringifyElems none xs') (']' :: rest)
          simp only [stringifyV, stringifyElems, List.cons_append, List.append_assoc,
            List.singleton_append, List.nil_append]
          rw [hT, hct, List.cons_append]
          rw [parseValue.eq_def]
          simp only [show (('[' : Char) = 'n') = False by simp,
            show (('[' : Char) = 't') = False by simp,
            show (('[' : Char) = 'f') = False by simp,
            show (('[' : Char) = '"') = False by simp, if_false, if_pos rfl, if_true, hc1,
            List.nil_append]
          rw [show c :: (t ++ T) = joinComma (stringifyElems none (x :: xs')) ++ ']' :: rest by
            rw [← List.cons_append, ← hct, ← hT]
            simp only [stringifyElems]]
          rw [ihQ (x :: xs') rest (by simp) hsz hrest]
          rfl
      | obj kvs =>
        cases kvs with
        | nil =>
          simp only [stringifyV, stringifyMembers, List.map_nil, joinComma,
            List.cons_append, List.nil_append]
          rw [parseValue.eq_def]
          simp [show (lbrace = 'n') = False by simp [lbrace],
            show (lbrace = 't') = False by simp [lbrace],
            show (lbrace = 'f') = False by simp [lbrace],
            show (lbrace = '"') = False by simp [lbrace],
            show (lbrace = '[') = False by simp [lbrace]]
        | cons m ms =>
          obtain ⟨k, v⟩ := m
          have hsz : sizeM ((k, v) :: ms) ≤ f := by
            simp only [sizeV] at hs
            omega
          obtain ⟨T, hT⟩ :=
            joinComma_cons_append (jsonQuote k.data ++ ':' :: stringifyV none v)
              ((stringifyMembers none ms).map (fun e => jsonQuote e.1.data ++ ':' :: e.2))
              (rbrace :: rest)
          simp only [stringifyV, stringifyMembers, List.map_cons, List.cons_append,
            List.append_assoc, List.singleton_append, List.nil_append]
          rw [show lbrace ::
              (joinComma ((jsonQuote k.data ++ ':' :: stringifyV none v) ::
                (stringifyMembers none ms).map (fun e => jsonQuote e.1.data ++ ':' :: e.2)) ++
                rbrace :: rest) =
              lbrace :: ((jsonQuote k.data ++ ':' :: stringifyV none v) ++ T) by rw [hT]]
          have hq : (jsonQuote k.data ++ ':' :: stringifyV none v) ++ T =
              '"' :: (k.data.flatMap jsonEscapeChar ++ '"' :: ':' :: (stringifyV none v ++ T)) := by
            simp [jsonQuote]
          rw [hq]
          rw [parseValue.eq_def]
          simp only [show (lbrace = 'n') = False by simp [lbrace],
            show (lbrace = 't') = False by simp [lbrace],
            show (lbrace = 'f') = False by simp [lbrace],
            show (lbrace = '"') = False by simp [lbrace],
            show (lbrace = '[') = False by simp [lbrace],
            show (lbrace = lbrace) = True by simp, if_false, if_true,
            show (('"' : Char) = rbrace) = False by simp [rbrace], if_false]
          rw [show ('"' :: (k.data.flatMap jsonEscapeChar ++ '"' :: ':' :: (stringifyV none v ++ T))) =
            joinComma ((stringifyMembers none ((k, v) :: ms)).map
              (fun e => jsonQuote e.1.data ++ ':' :: e.2)) ++ rbrace :: rest by
            rw [← hq]
            simp only [stringifyMembers, List.map_cons]
            rw [hT]]
          rw [ihR ((k, v) :: ms) rest (by simp) hsz hrest]
          rfl
    · intro kvs rest hne hs hrest
      cases kvs with
      | nil => exact absurd rfl hne
      | cons m ms =>
        obtain ⟨k, v⟩ := m
        have hszv : sizeV v ≤ f := by
          simp only [sizeM] at hs
          omega
        cases ms with
        | nil =>
          simp only [stringifyMembers, List.map_cons, List.map_nil, joinComma_single,
            List.cons_append, List.append_assoc, List.nil_append]
          have hq : jsonQuote k.data ++ ':' :: (stringifyV none v ++ rbrace :: rest) =
              '"' :: (k.data.flatMap jsonEscapeChar ++
                '"' :: ':' :: (stringifyV none v ++ rbrace :: rest)) := by
            simp [jsonQuote]
          rw [hq, parseMembers.eq_def]
          simp only [if_pos rfl]
          rw [parseStringBody_escape k.data (':' :: (stringifyV none v ++ rbrace :: rest))]
          simp only [Option.some_bind, if_pos rfl]
          rw [ihP v (rbrace :: rest) hszv (notDigitStart_cons (by decide) _)]
          simp only [Option.some_bind,
            show (rbrace = ',') = False by simp [rbrace], if_false, if_pos rfl, if_true]
        | cons m2 ms2 =>
          obtain ⟨k2, v2⟩ := m2
          have hszr : sizeM ((k2, v2) :: ms2) ≤ f := by
            simp only [sizeM] at hs ⊢
            omega
          simp only [stringifyMembers, List.map_cons, joinComma_cons2,
            List.cons_append, List.append_assoc, List.nil_append]
          have hq : jsonQuote k.data ++ ':' :: (stringifyV none v ++
              ',' :: (joinComma ((jsonQuote k2.data ++ ':' :: stringifyV none v2) ::
                (stringifyMembers none ms2).map (fun e => jsonQuote e.1.data ++ ':' :: e.2)) ++
                rbrace :: rest)) =
              '"' :: (k.data.flatMap jsonEscapeChar ++ '"' :: ':' :: (stringifyV none v ++
              ',' :: (joinComma ((stringifyMembers none ((k2, v2) :: ms2)).map
                (fun e => jsonQuote e.1.data ++ ':' :: e.2)) ++ rbrace :: rest))) := by
            simp only [stringifyMembers, List.map_cons, jsonQuote, List.cons_append,
              List.append_assoc, List.singleton_append, List.nil_append]
          rw [hq, parseMembers.eq_def]
          simp only [if_pos rfl]
          rw [parseStringBody_escape k.data]
          simp only [Option.some_bind, if_pos rfl]
          rw [ihP v _ hszv (notDigitStart_cons (by decide) _)]
          simp only [Option.some_bind, if_pos rfl, if_true]
          rw [ihR ((k2, v2) :: ms2) rest (by simp) hszr hrest]
          rfl
    · intro xs rest hne hs hrest
      cases xs with
      | nil => exact absurd rfl hne
      | cons x xs' =>
        have hszx : sizeV x ≤ f := by
          simp only [sizeL] at hs
          omega
        cases xs' with
        | nil =>
          simp only [stringifyElems, joinComma_single]
          rw [parseElems.eq_def]
          simp [ihP x (']' :: rest) hszx (notDigitStart_cons (by decide) _)]
        | cons y ys =>
          have hszr : sizeL (y :: ys) ≤ f := by
            simp only [sizeL] at hs ⊢
            omega
          simp only [stringifyElems, joinComma_cons2, List.cons_append, List.append_assoc,
            List.nil_append]
          rw [parseElems.eq_def]
          simp only [ihP x (',' :: (joinComma (stringifyV none y :: stringifyElems none ys) ++
            ']' :: rest)) hszx (notDigitStart_cons (by decide) _), Option.some_bind,
            if_pos rfl, if_true]
          rw [show joinComma (stringifyV none y :: stringifyElems none ys) ++ ']' :: rest =
              joinComma (stringifyElems none (y :: ys)) ++ ']' :: rest by
            simp only [stringifyElems]]
          rw [ihQ (y :: ys) rest (by simp) hszr hrest]
          rfl

theorem jsonQuote_length (s : List Char) : 2 ≤ (jsonQuote s).length := by
  simp [jsonQuote]

theorem sizeV_le_length (v : Value) : sizeV v ≤ (stringifyV none v).length := by
  refine sizeV.induct
    (fun v => sizeV v ≤ (stringifyV none v).length)
    (fun kvs => sizeM kvs ≤ (joinComma ((stringifyMembers none kvs).map
      (fun e => jsonQuote e.1.data ++ ':' :: e.2))).length + 1)
    (fun xs => sizeL xs ≤ (joinComma (stringifyElems none xs)).length + 1)
    ?_ ?_ ?_ ?_ ?_ ?_ ?_ ?_ ?_ ?_ v
  · simp [sizeV, stringifyV]
  · intro b
    cases b <;> simp [sizeV, stringifyV]
  · intro n
    obtain ⟨c, cs, hcs, _⟩ := intToChars_head n
    simp [sizeV, stringifyV, hcs]
  · intro s
    simp [sizeV, stringifyV, jsonQuote]
  · intro xs ih
    simp only [sizeV, stringifyV, List.length_cons, List.length_append,
      List.length_singleton]
    omega
  · intro kvs ih
    simp only [sizeV, stringifyV, List.length_cons, List.length_append,
      List.length_singleton]
    omega
  · simp [sizeL]
  · intro v' rest ih1 ih2
    cases rest with
    | nil =>
      simp only [sizeL, stringifyElems, joinComma_single]
      omega
    | cons w ws =>
      simp only [sizeL, stringifyElems, joinComma_cons2, List.length_append,
        List.length_cons] at ih2 ⊢
      omega
  · simp [sizeM]
  · intro k v' rest ih1 ih2
    have hk := jsonQuote_length k.data
    cases rest with
    | nil =>
      simp only [sizeM, stringifyMembers, List.map_cons, List.map_nil, joinComma_single,
        List.length_append, List.length_cons]
      omega
    | cons m2 ms2 =>
      obtain ⟨k2, v2⟩ := m2
      simp only [sizeM, stringifyMembers, List.map_cons, joinComma_cons2,
        List.length_append, List.length_cons] at ih2 ⊢
      omega

theorem jsonParse_stringify (v : Value) : jsonParse (stringify v) = some v := by
  unfold jsonParse stringify
  have hfuel : sizeV v ≤ (stringifyV none v).length + 1 :=
    le_trans (sizeV_le_length v) (by omega)
  have h := (parse_stringify ((stringifyV none v).length + 1)).1 v [] hfuel trivial
  rw [List.append_nil] at h
  rw [h]

/-! ## Round trips of the character level encodings -/

theorem utf16Decode_encode (s : List Char) : utf16Decode (utf16Encode s) = some s := by
  induction s with
  | nil => rfl
  | cons c cs ih =>
    have hv := char_isValid c
    have hlt := char_toNat_lt c
    simp only [utf16Encode, List.flatMap_cons] at ih ⊢
    by_cases h : c.toNat < 65536
    · simp only [utf16EncodeChar, if_pos h, List.cons_append, List.nil_append]
      rw [utf16Decode.eq_def]
      have hcond : c.toNat < 55296 ∨ (57343 < c.toNat ∧ c.toNat < 65536) := by
        rcases hv with h1 | h1
        · exact Or.inl h1
        · exact Or.inr (by omega)
      simp only [if_pos hcond, ih, Char.ofNat_toNat]
      rfl
    · simp only [utf16EncodeChar, if_neg h, List.cons_append, List.nil_append]
      rw [utf16Decode.eq_def]
      have hv2 : 57343 < c.toNat := by
        rcases hv with h1 | h1
        · omega
        · omega
      have hr1 : ¬ (55296 + (c.toNat - 65536) / 1024 < 55296 ∨
          (57343 < 55296 + (c.toNat - 65536) / 1024 ∧
            55296 + (c.toNat - 65536) / 1024 < 65536)) := by
        omega
      have hr2 : 55296 ≤ 55296 + (c.toNat - 65536) / 1024 ∧
          55296 + (c.toNat - 65536) / 1024 < 56320 := by
        omega
      have hr3 : 56320 ≤ 56320 + (c.toNat - 65536) % 1024 ∧
          56320 + (c.toNat - 65536) % 1024 < 57344 := by
        omega
      simp only [if_neg hr1, if_pos hr2, if_pos hr3, ih, Option.map_some]
      have harith : 65536 + (55296 + (c.toNat - 65536) / 1024 - 55296) * 1024 +
          (56320 + (c.toNat - 65536) % 1024 - 56320) = c.toNat := by
        omega
      rw [harith, Char.ofNat_toNat]
      rfl

theorem utf16EncodeChar_lt (c : Char) : ∀ u ∈ utf16EncodeChar c, u < 65536 := by
  have hlt := char_toNat_lt c
  unfold utf16EncodeChar
  by_cases h : c.toNat < 65536
  · rw [if_pos h]
    intro u hu
    rw [List.mem_singleton] at hu
    omega
  · rw [if_neg h]
    intro u hu
    rcases List.mem_pair.mp hu with h2 | h2 <;> omega

theorem utf16Encode_lt (s : List Char) : ∀ u ∈ utf16Encode s, u < 65536 := by
  intro u hu
  simp only [utf16Encode, List.mem_flatMap] at hu
  obtain ⟨c, _, hc⟩ := hu
  exact utf16EncodeChar_lt c u hc

theorem utf16Encode_map_ofNat (us : List Nat) (h : ∀ u ∈ us, u < 55296) :
    utf16Encode (us.map Char.ofNat) = us := by
  induction us with
  | nil => rfl
  | cons u rest ih =>
    have hu : u < 55296 := h u (List.mem_cons_self _ _)
    have ht : (Char.ofNat u).toNat = u := char_toNat_ofNat_lt hu
    have ih2 := ih (fun x hx => h x (List.mem_cons_of_mem _ hx))
    simp only [utf16Encode] at ih2
    simp only [List.map_cons, utf16Encode, List.flatMap_cons, utf16EncodeChar, ht,
      if_pos (by omega : u < 65536), List.cons_append, List.nil_append, ih2]

theorem utf16Encode_ne_nil {s : List Char} (h : s ≠ []) : utf16Encode s ≠ [] := by
  cases s with
  | nil => exact absurd rfl h
  | cons c cs =>
    simp only [utf16Encode, List.flatMap_cons]
    intro hcontra
    rw [List.append_eq_nil] at hcontra
    have h2 := hcontra.1
    by_cases h3 : c.toNat < 65536
    · simp [utf16EncodeChar, if_pos h3] at h2
    · simp [utf16EncodeChar, if_neg h3] at h2

theorem joinPairs_splitPairs (us : List Nat) (h : ∀ u ∈ us, u < 65536) :
    joinPairs (splitPairs us) = some us := by
  induction us with
  | nil => rfl
  | cons u rest ih =>
    have hu : u < 65536 := h u (List.mem_cons_self _ _)
    simp only [splitPairs, joinPairs]
    rw [ih (fun x hx => h x (List.mem_cons_of_mem _ hx))]
    have huu : u % 256 + 256 * (u / 256) = u := by omega
    simp [huu]

theorem splitPairs_lt (us : List Nat) (h : ∀ u ∈ us, u < 65536) :
    ∀ b ∈ splitPairs us, b < 256 := by
  induction us with
  | nil =>
    intro b hb
    simp only [splitPairs] at hb
    exact absurd hb (List.not_mem_nil b)
  | cons u rest ih =>
    have hu : u < 65536 := h u (List.mem_cons_self _ _)
    intro b hb
    simp only [splitPairs, List.mem_cons] at hb
    rcases hb with rfl | rfl | hb
    · omega
    · omega
    · exact ih (fun x hx => h x (List.mem_cons_of_mem _ hx)) b hb

/-! ## Round trip of base64 -/

theorem b64inv_b64c : ∀ s, s < 64 → b64inv (b64c s) = some s := by decide

theorem b64c_lt64_ne : ∀ s, s < 64 → b64c s ≠ 61 ∧ b64c s ≠ 33 ∧ b64c s < 128 := by decide

theorem b64c_props (s : Nat) : b64c s ≠ 61 ∧ b64c s ≠ 33 ∧ b64c s < 128 := by
  by_cases h : s < 64
  · exact b64c_lt64_ne s h
  · have : b64c s = 65 := by
      unfold b64c
      apply List.getD_eq_default
      rw [show b64Table.length = 64 from rfl]
      omega
    rw [this]
    refine ⟨by omega, by omega, by omega⟩

theorem atob_btoa (bs : List Nat) (h : ∀ b ∈ bs, b < 256) : atob (btoa bs) = some bs := by
  induction bs using btoa.induct with
  | case1 => rfl
  | case2 b0 =>
    have hb0 : b0 < 256 := h b0 (List.mem_cons_self _ _)
    have e : b0 / 4 * 4 + b0 % 4 * 16 / 16 = b0 := by omega
    rw [btoa, atob.eq_def]
    simp [b64inv_b64c (b0 / 4) (by omega), b64inv_b64c (b0 % 4 * 16) (by omega), e]
    all_goals omega
  | case3 b0 b1 =>
    have hb0 : b0 < 256 := h b0 (List.mem_cons_self _ _)
    have hb1 : b1 < 256 := h b1 (List.mem_cons_of_mem _ (List.mem_cons_self _ _))
    have e1 : b0 / 4 * 4 + (b0 % 4 * 16 + b1 / 16) / 16 = b0 := by omega
    have e2 : (b0 % 4 * 16 + b1 / 16) % 16 * 16 + b1 % 16 * 4 / 4 = b1 := by omega
    have hne := (b64c_props (b1 % 16 * 4)).1
    rw [btoa, atob.eq_def]
    simp [b64inv_b64c (b0 / 4) (by omega), b64inv_b64c (b0 % 4 * 16 + b1 / 16) (by omega),
      b64inv_b64c (b1 % 16 * 4) (by omega), hne, e1, e2]
    all_goals omega
  | case4 b0 b1 b2 rest ih =>
    have hb0 : b0 < 256 := h b0 (List.mem_cons_self _ _)
    have hb1 : b1 < 256 := h b1 (List.mem_cons_of_mem _ (List.mem_cons_self _ _))
    have hb2 : b2 < 256 :=
      h b2 (List.mem_cons_of_mem _ (List.mem_cons_of_mem _ (List.mem_cons_self _ _)))
    have hrest : ∀ b ∈ rest, b < 256 := fun b hb =>
      h b (List.mem_cons_of_mem _ (List.mem_cons_of_mem _ (List.mem_cons_of_mem _ hb)))
    have e1 : b0 / 4 * 4 + (b0 % 4 * 16 + b1 / 16) / 16 = b0 := by omega
    have e2 : (b0 % 4 * 16 + b1 / 16) % 16 * 16 + (b1 % 16 * 4 + b2 / 64) / 4 = b1 := by
      omega
    have e3 : (b1 % 16 * 4 + b2 / 64) % 4 * 64 + b2 % 64 = b2 := by omega
    have hne2 := (b64c_props (b1 % 16 * 4 + b2 / 64)).1
    have hne3 := (b64c_props (b2 % 64)).1
    rw [btoa, atob.eq_def]
    simp [b64inv_b64c (b0 / 4) (by omega), b64inv_b64c (b0 % 4 * 16 + b1 / 16) (by omega),
      b64inv_b64c (b1 % 16 * 4 + b2 / 64) (by omega), b64inv_b64c (b2 % 64) (by omega),
      hne2, hne3, ih hrest, e1, e2, e3]

theorem btoa_mem_props (bs : List Nat) : ∀ u ∈ btoa bs, u ≠ 33 ∧ u < 128 := by
  induction bs using btoa.induct with
  | case1 =>
    intro u hu
    simp [btoa] at hu
  | case2 b0 =>
    intro u hu
    rw [btoa] at hu
    have h1 := b64c_props (b0 / 4)
    have h2 := b64c_props (b0 % 4 * 16)
    rcases List.mem_cons.mp hu with rfl | hu
    · exact ⟨h1.2.1, h1.2.2⟩
    rcases List.mem_cons.mp hu with rfl | hu
    · exact ⟨h2.2.1, h2.2.2⟩
    rcases List.mem_cons.mp hu with rfl | hu
    · exact ⟨by omega, by omega⟩
    rcases List.mem_cons.mp hu with rfl | hu
    · exact ⟨by omega, by omega⟩
    exact absurd hu (List.not_mem_nil u)
  | case3 b0 b1 =>
    intro u hu
    rw [btoa] at hu
    have h1 := b64c_props (b0 / 4)
    have h2 := b64c_props (b0 % 4 * 16 + b1 / 16)
    have h3 := b64c_props (b1 % 16 * 4)
    rcases List.mem_cons.mp hu with rfl | hu
    · exact ⟨h1.2.1, h1.2.2⟩
    rcases List.mem_cons.mp hu with rfl | hu
    · exact ⟨h2.2.1, h2.2.2⟩
    rcases List.mem_cons.mp hu with rfl | hu
    · exact ⟨h3.2.1, h3.2.2⟩
    rcases List.mem_cons.mp hu with rfl | hu
    · exact ⟨by omega, by omega⟩
    exact absurd hu (List.not_mem_nil u)
  | case4 b0 b1 b2 rest ih =>
    intro u hu
    rw [btoa] at hu
    have h1 := b64c_props (b0 / 4)
    have h2 := b64c_props (b0 % 4 * 16 + b1 / 16)
    have h3 := b64c_props (b1 % 16 * 4 + b2 / 64)
    have h4 := b64c_props (b2 % 64)
    rcases List.mem_cons.mp hu with rfl | hu
    · exact ⟨h1.2.1, h1.2.2⟩
    rcases List.mem_cons.mp hu with rfl | hu
    · exact ⟨h2.2.1, h2.2.2⟩
    rcases List.mem_cons.mp hu with rfl | hu
    · exact ⟨h3.2.1, h3.2.2⟩
    rcases List.mem_cons.mp hu with rfl | hu
    · exact ⟨h4.2.1, h4.2.2⟩
    exact ih u hu

/-! ## The full encoder round trip -/

theorem stringify_ne_nil (v : Value) : stringify v ≠ [] := by
  obtain ⟨c, t, hct, _, _⟩ := stringify_head none v
  rw [stringify, hct]
  simp

theorem btoa_ne_nil {bs : List Nat} (h : bs ≠ []) : btoa bs ≠ [] := by
  cases bs with
  | nil => exact absurd rfl h
  | cons b0 rest =>
    cases rest with
    | nil => rw [btoa]; simp
    | cons b1 rest2 =>
      cases rest2 with
      | nil => rw [btoa]; simp
      | cons b2 rest3 => rw [btoa]; simp

theorem decode_cons (c : Char) (rest : List Char) :
    decode (String.mk (c :: rest)) =
      if c = '!' then decodeTail (utf16Encode rest) true
      else decodeTail (utf16Encode (c :: rest)) false := rfl

theorem decode_encode (v : Value) : decode (encode v) = some v := by
  have hstr := stringify_ne_nil v
  have hunits_lt := utf16Encode_lt (stringify v)
  unfold encode encodeUnits
  by_cases hall : (utf16Encode (stringify v)).all (fun u => u ≤ 255)
  · rw [if_pos hall]
    have hbytes : ∀ b ∈ utf16Encode (stringify v), b < 256 := by
      intro b hb
      have h2 := List.all_eq_true.mp hall b hb
      simp at h2
      omega
    have hne : utf16Encode (stringify v) ≠ [] := utf16Encode_ne_nil hstr
    obtain ⟨u0, ut, hu0⟩ : ∃ u0 ut, btoa (utf16Encode (stringify v)) = u0 :: ut := by
      cases hbu : btoa (utf16Encode (stringify v)) with
      | nil => exact absurd hbu (btoa_ne_nil hne)
      | cons u0 ut => exact ⟨u0, ut, rfl⟩
    have hprops := btoa_mem_props (utf16Encode (stringify v))
    have hmem0 : u0 ∈ btoa (utf16Encode (stringify v)) := by
      rw [hu0]; exact List.mem_cons_self _ _
    rw [hu0, List.map_cons, decode_cons]
    have hno : ¬ (Char.ofNat u0 = '!') := by
      intro he
      have h33 : (Char.ofNat u0).toNat = 33 := by rw [he]; rfl
      rw [char_toNat_ofNat_lt (by have := (hprops u0 hmem0).2; omega)] at h33
      exact (hprops u0 hmem0).1 h33
    rw [if_neg hno]
    rw [show (Char.ofNat u0 :: ut.map Char.ofNat) = (u0 :: ut).map Char.ofNat from rfl]
    rw [utf16Encode_map_ofNat (u0 :: ut) (by
      intro x hx
      rw [← hu0] at hx
      have := (hprops x hx).2
      omega)]
    rw [← hu0]
    unfold decodeTail
    rw [atob_btoa _ hbytes]
    simp only [Option.some_bind, Bool.false_eq_true, if_false, if_neg]
    rw [utf16Decode_encode (stringify v)]
    simp only [Option.some_bind]
    exact jsonParse_stringify v
  · rw [if_neg hall]
    have hsplit_lt := splitPairs_lt (utf16Encode (stringify v)) hunits_lt
    have hprops := btoa_mem_props (splitPairs (utf16Encode (stringify v)))
    rw [List.map_cons, decode_cons]
    rw [if_pos (show Char.ofNat 33 = '!' from rfl)]
    rw [utf16Encode_map_ofNat _ (by
      intro x hx
      have := (hprops x hx).2
      omega)]
    unfold decodeTail
    rw [atob_btoa _ hsplit_lt]
    simp only [Option.some_bind, if_true]
    rw [joinPairs_splitPairs _ hunits_lt]
    simp only [Option.some_bind]
    rw [utf16Decode_encode (stringify v)]
    simp only [Option.some_bind]
    exact jsonParse_stringify v

/-! ## Key order independence of objectRepresentation -/


theorem collectRawM_eq_flatMap (l : List (String × Value)) :
    collectRawM l = l.flatMap (fun e => e.1 :: collectRawV e.2) := by
  induction l with
  | nil => rfl
  | cons e rest ih =>
    obtain ⟨k, v⟩ := e
    simp only [collectRawM, List.flatMap_cons, ih, List.cons_append]

theorem keyPerm_collect {v w : Value} (h : KeyPerm v w) :
    (collectRawV v).Perm (collectRawV w) := by
  induction h with
  | null => exact List.Perm.refl _
  | bool b => exact List.Perm.refl _
  | num n => exact List.Perm.refl _
  | str s => exact List.Perm.refl _
  | arr ps hps ih =>
    simp only [collectRawV]
    suffices hgen : ∀ i, (collectRawL i (ps.map Prod.fst)).Perm
        (collectRawL i (ps.map Prod.snd)) from hgen 0
    clear hps
    induction ps with
    | nil => intro i; exact List.Perm.refl _
    | cons p ps' ihl =>
      intro i
      simp only [List.map_cons, collectRawL]
      exact List.Perm.cons _
        (List.Perm.append (ih p (List.mem_cons_self _ _))
          (ihl (fun q hq => ih q (List.mem_cons_of_mem _ hq)) (i + 1)))
  | obj kvs1 mid hperm hvals nd ih =>
    simp only [collectRawV]
    have step1 : (collectRawM kvs1).Perm
        (collectRawM (mid.map (fun e => (e.1, e.2.1)))) := by
      rw [collectRawM_eq_flatMap, collectRawM_eq_flatMap]
      exact hperm.flatMap_right _
    refine step1.trans ?_
    clear hperm hvals nd step1
    induction mid with
    | nil => exact List.Perm.refl _
    | cons e rest ihm =>
      obtain ⟨k, v1, v2⟩ := e
      simp only [List.map_cons, collectRawM]
      exact List.Perm.cons _
        (List.Perm.append (ih (k, v1, v2) (List.mem_cons_self _ _))
          (ihm (fun q hq => ih q (List.mem_cons_of_mem _ hq))))

theorem jsDedupAux_mem (l : List String) :
    ∀ seen a, a ∈ jsDedupAux seen l ↔ a ∈ l ∧ a ∉ seen := by
  induction l with
  | nil => intro seen a; simp [jsDedupAux]
  | cons k rest ih =>
    intro seen a
    by_cases hk : k ∈ seen
    · rw [jsDedupAux, if_pos hk, ih]
      constructor
      · rintro ⟨h1, h2⟩
        exact ⟨List.mem_cons_of_mem _ h1, h2⟩
      · rintro ⟨h1, h2⟩
        rcases List.mem_cons.mp h1 with rfl | h1
        · exact absurd hk h2
        · exact ⟨h1, h2⟩
    · rw [jsDedupAux, if_neg hk]
      constructor
      · intro hmem
        rcases List.mem_cons.mp hmem with rfl | hmem
        · exact ⟨List.mem_cons_self _ _, hk⟩
        · rw [ih] at hmem
          refine ⟨List.mem_cons_of_mem _ hmem.1, ?_⟩
          intro hcontra
          exact hmem.2 (List.mem_cons_of_mem _ hcontra)
      · rintro ⟨h1, h2⟩
        rcases List.mem_cons.mp h1 with rfl | h1
        · exact List.mem_cons_self _ _
        · by_cases hak : a = k
          · subst hak
            exact List.mem_cons_self _ _
          · apply List.mem_cons_of_mem
            rw [ih]
            refine ⟨h1, ?_⟩
            intro hcontra
            rcases List.mem_cons.mp hcontra with h3 | h3
            · exact hak h3
            · exact h2 h3

theorem jsDedupAux_nodup (l : List String) : ∀ seen, (jsDedupAux seen l).Nodup := by
  induction l with
  | nil => intro seen; simp [jsDedupAux]
  | cons k rest ih =>
    intro seen
    by_cases hk : k ∈ seen
    · rw [jsDedupAux, if_pos hk]
      exact ih seen
    · rw [jsDedupAux, if_neg hk]
      refine List.Nodup.cons ?_ (ih (k :: seen))
      intro hcontra
      rw [jsDedupAux_mem] at hcontra
      exact hcontra.2 (List.mem_cons_self _ _)

theorem jsDedup_mem (l : List String) (a : String) : a ∈ jsDedup l ↔ a ∈ l := by
  rw [jsDedup, jsDedupAux_mem]
  simp

theorem jsDedup_nodup (l : List String) : (jsDedup l).Nodup := jsDedupAux_nodup l []

theorem lexLe_total (a b : List Char) : lexLe a b = true ∨ lexLe b a = true := by
  induction a generalizing b with
  | nil => left; rfl
  | cons x xs ih =>
    cases b with
    | nil => right; rfl
    | cons y ys =>
      by_cases h1 : x.toNat < y.toNat
      · left
        rw [lexLe, if_pos h1]
      · by_cases h2 : y.toNat < x.toNat
        · right
          rw [lexLe, if_pos h2]
        · rcases ih ys with h | h
          · left
            rw [lexLe, if_neg h1, if_neg h2]
            exact h
          · right
            rw [lexLe, if_neg h2, if_neg h1]
            exact h

theorem lexLe_trans (a b c : List Char) (h1 : lexLe a b = true) (h2 : lexLe b c = true) :
    lexLe a c = true := by
  induction a generalizing b c with
  | nil => rfl
  | cons x xs ih =>
    cases b with
    | nil => exact absurd h1 (by rw [lexLe]; simp)
    | cons y ys =>
      cases c with
      | nil => exact absurd h2 (by rw [lexLe]; simp)
      | cons z zs =>
        rw [lexLe] at h1 h2 ⊢
        by_cases hxy : x.toNat < y.toNat
        · by_cases hyz : y.toNat < z.toNat
          · rw [if_pos (by omega)]
          · rw [if_neg hyz] at h2
            by_cases hzy : z.toNat < y.toNat
            · rw [if_pos hzy] at h2
              exact absurd h2 (by simp)
            · rw [if_pos (by omega)]
        · rw [if_neg hxy] at h1
          by_cases hyx : y.toNat < x.toNat
          · rw [if_pos hyx] at h1
            exact absurd h1 (by simp)
          · rw [if_neg hyx] at h1
            by_cases hyz : y.toNat < z.toNat
            · rw [if_pos (by omega)]
            · rw [if_neg hyz] at h2
              by_cases hzy : z.toNat < y.toNat
              · rw [if_pos hzy] at h2
                exact absurd h2 (by simp)
              · rw [if_neg hzy] at h2
                rw [if_neg (by omega), if_neg (by omega)]
                exact ih ys zs h1 h2

theorem lexLe_antisymm (a b : List Char) (h1 : lexLe a b = true) (h2 : lexLe b a = true) :
    a = b := by
  induction a generalizing b with
  | nil =>
    cases b with
    | nil => rfl
    | cons y ys => exact absurd h2 (by rw [lexLe]; simp)
  | cons x xs ih =>
    cases b with
    | nil => exact absurd h1 (by rw [lexLe]; simp)
    | cons y ys =>
      rw [lexLe] at h1 h2
      by_cases hxy : x.toNat < y.toNat
      · rw [if_neg (by omega), if_pos hxy] at h2
        exact absurd h2 (by simp)
      · rw [if_neg hxy] at h1
        by_cases hyx : y.toNat < x.toNat
        · rw [if_pos hyx] at h1
          exact absurd h1 (by simp)
        · rw [if_neg hyx] at h1
          rw [if_neg hxy, if_neg hyx] at h2
          have hx : x = y := char_toNat_inj (by omega)
          rw [hx, ih ys h1 h2]

@[instance] theorem strLe_isTotal : IsTotal String strLe :=
  ⟨fun a b => lexLe_total a.data b.data⟩

@[instance] theorem strLe_isTrans : IsTrans String strLe :=
  ⟨fun a b c h1 h2 => lexLe_trans a.data b.data c.data h1 h2⟩

@[instance] theorem strLe_isAntisymm : IsAntisymm String strLe := by
  refine ⟨fun a b h1 h2 => ?_⟩
  cases a with
  | mk d1 =>
    cases b with
    | mk d2 =>
      have : d1 = d2 := lexLe_antisymm d1 d2 h1 h2
      rw [this]

theorem sortKeys_eq_of_perm {l1 l2 : List String} (h : l1.Perm l2) :
    List.insertionSort strLe l1 = List.insertionSort strLe l2 := by
  apply List.eq_of_perm_of_sorted
    ((List.perm_insertionSort strLe l1).trans
      (h.trans (List.perm_insertionSort strLe l2).symm))
    (List.sorted_insertionSort strLe l1) (List.sorted_insertionSort strLe l2)

theorem keyPerm_sortedKeys {v w : Value} (h : KeyPerm v w) : sortedKeys v = sortedKeys w := by
  unfold sortedKeys
  apply sortKeys_eq_of_perm
  rw [List.perm_ext_iff_of_nodup (jsDedup_nodup _) (jsDedup_nodup _)]
  intro a
  rw [jsDedup_mem, jsDedup_mem]
  have hp : (("" : String) :: collectRawV v).Perm ("" :: collectRawV w) :=
    List.Perm.cons _ (keyPerm_collect h)
  exact ⟨fun hm => hp.mem_iff.mp hm, fun hm => hp.mem_iff.mpr hm⟩

theorem stringifyMembers_eq_map (props : Option (List String))
    (l : List (String × Value)) :
    stringifyMembers props l = l.map (fun e => (e.1, stringifyV props e.2)) := by
  induction l with
  | nil => rfl
  | cons e rest ih =>
    obtain ⟨k, v⟩ := e
    simp only [stringifyMembers, List.map_cons, ih]

theorem lookupSer_perm {l1 l2 : List (String × List Char)} (h : l1.Perm l2)
    (nd : (l1.map Prod.fst).Nodup) (p : String) : lookupSer l1 p = lookupSer l2 p := by
  induction h with
  | nil => rfl
  | cons x h ih =>
    obtain ⟨k, s⟩ := x
    rw [lookupSer, lookupSer]
    simp only [List.map_cons, List.nodup_cons] at nd
    by_cases hk : k = p
    · rw [if_pos hk, if_pos hk]
    · rw [if_neg hk, if_neg hk]
      exact ih nd.2
  | swap x y l =>
    obtain ⟨kx, sx⟩ := x
    obtain ⟨ky, sy⟩ := y
    simp only [List.map_cons, List.nodup_cons, List.mem_cons] at nd
    have hne : ky ≠ kx := fun hcontra => nd.1 (Or.inl hcontra)
    rw [lookupSer, lookupSer, lookupSer, lookupSer]
    by_cases hy : ky = p
    · rw [if_pos hy, if_neg (fun hc => hne (hy.trans hc.symm)), if_pos hy]
    · rw [if_neg hy]
      by_cases hx : kx = p
      · rw [if_pos hx, if_pos hx]
      · rw [if_neg hx, if_neg hx, if_neg hy]
  | trans h1 h2 ih1 ih2 =>
    rw [ih1 nd]
    exact ih2 ((h1.map Prod.fst).nodup nd)

theorem keyPerm_stringify {v w : Value} (h : KeyPerm v w) (props : List String) :
    stringifyV (some props) v = stringifyV (some props) w := by
  induction h with
  | null => rfl
  | bool b => rfl
  | num n => rfl
  | str s => rfl
  | arr ps hps ih =>
    simp only [stringifyV]
    suffices helems : stringifyElems (some props) (ps.map Prod.fst) =
        stringifyElems (some props) (ps.map Prod.snd) by rw [helems]
    clear hps
    induction ps with
    | nil => rfl
    | cons p ps' ihl =>
      simp only [List.map_cons, stringifyElems]
      rw [ih p (List.mem_cons_self _ _),
        ihl (fun q hq => ih q (List.mem_cons_of_mem _ hq))]
  | obj kvs1 mid hperm hvals nd ih =>
    simp only [stringifyV]
    have hser : stringifyMembers (some props) (mid.map (fun e => (e.1, e.2.1))) =
        stringifyMembers (some props) (mid.map (fun e => (e.1, e.2.2))) := by
      clear hperm hvals nd
      induction mid with
      | nil => rfl
      | cons e rest ihm =>
        obtain ⟨k, v1, v2⟩ := e
        simp only [List.map_cons, stringifyMembers]
        rw [ih (k, v1, v2) (List.mem_cons_self _ _),
          ihm (fun q hq => ih q (List.mem_cons_of_mem _ hq))]
    have hlook : ∀ p, lookupSer (stringifyMembers (some props) kvs1) p =
        lookupSer (stringifyMembers (some props) (mid.map (fun e => (e.1, e.2.2)))) p := by
      intro p
      rw [← hser]
      apply lookupSer_perm
      · rw [stringifyMembers_eq_map, stringifyMembers_eq_map]
        exact hperm.map _
      · rw [stringifyMembers_eq_map]
        have : (kvs1.map (fun e => (e.1, stringifyV (some props) e.2))).map Prod.fst =
            kvs1.map Prod.fst := by
          rw [List.map_map]
          rfl
        rw [this]
        exact nd
    have hparts : props.filterMap (fun p =>
        (lookupSer (stringifyMembers (some props) kvs1) p).map
          (fun s => jsonQuote p.data ++ ':' :: s)) =
        props.filterMap (fun p =>
          (lookupSer (stringifyMembers (some props)
            (mid.map (fun e => (e.1, e.2.2)))) p).map
              (fun s => jsonQuote p.data ++ ':' :: s)) := by
      apply List.filterMap_congr
      intro p _
      rw [hlook p]
    rw [hparts]

/-- objectRepresentation on any two values that are deeply equal except
for object member declaration order (claim C1's hypothesis). -/
theorem objectRepresentation_keyPerm {m1 m2 : Value} (h : KeyPerm m1 m2) :
    objectRepresentation m1 = objectRepresentation m2 := by
  unfold objectRepresentation
  rw [keyPerm_sortedKeys h, keyPerm_stringify h (sortedKeys m2)]

/-! ## Basic facts about the storage map and the state object -/

theorem lookupKey_setField (st : List (String × Value)) (k : String) (v : Value) :
    lookupKey (setField st k v) k = some v := by
  induction st with
  | nil => simp [setField, lookupKey]
  | cons e rest ih =>
    obtain ⟨k', v'⟩ := e
    unfold setField
    by_cases h : k' = k
    · rw [if_pos h]
      simp [lookupKey]
    · rw [if_neg h]
      unfold lookupKey
      rw [if_neg h]
      exact ih

theorem lookupStorage_removeItem (s : Storage) (k : String) :
    lookupStorage (removeItem s k) k = none := by
  induction s with
  | nil => rfl
  | cons e rest ih =>
    obtain ⟨k', v'⟩ := e
    unfold removeItem at ih ⊢
    rw [List.filter_cons]
    by_cases h : k' = k
    · rw [if_neg (by simp [h])]
      exact ih
    · rw [if_pos (by simp [h])]
      unfold lookupStorage
      rw [if_neg h]
      exact ih

theorem lookupStorage_filterPred (s : Storage) (p : String → Bool) (k : String) :
    lookupStorage (s.filter (fun e => !(p e.1))) k =
      (if p k then none else lookupStorage s k) := by
  induction s with
  | nil => simp [lookupStorage]
  | cons e rest ih =>
    obtain ⟨k', v'⟩ := e
    rw [List.filter_cons]
    by_cases hp : p k' = true
    · rw [if_neg (by simp [hp])]
      rw [ih]
      by_cases hk : k' = k
      · subst hk
        rw [if_pos hp, if_pos hp]
      · have hcons : lookupStorage ((k', v') :: rest) k = lookupStorage rest k := by
          conv_lhs => rw [lookupStorage]
          rw [if_neg hk]
        rw [hcons]
    · rw [Bool.not_eq_true] at hp
      rw [if_pos (by simp [hp])]
      unfold lookupStorage
      by_cases hk : k' = k
      · subst hk
        rw [if_pos rfl, if_neg (by simp [hp]), if_pos rfl]
      · rw [if_neg hk, if_neg hk, ih]

theorem string_append_data (a b : String) : (a ++ b).data = a.data ++ b.data := rfl

theorem computedCacheKeyOf_ne_empty (cfg : CachingConfig) (opts : Value) :
    computedCacheKeyOf cfg opts ≠ "" := by
  unfold computedCacheKeyOf
  intro h
  have hd := congrArg String.data h
  rw [string_append_data, string_append_data, string_append_data] at hd
  have hdash : ("-" : String).data = ['-'] := rfl
  rw [hdash] at hd
  simp at hd

/-! ## Event trace facts -/

theorem mem_loadingEvents {cfg : CachingConfig} {b : Bool} {x : LoadEvent}
    (h : x ∈ loadingEvents cfg b) : x = .setLoading b := by
  unfold loadingEvents at h
  split at h
  · simpa using h
  · simp at h

theorem lookupEvents_cases (cfg : CachingConfig) (ck : Value → Value → Bool)
    (key : String) (payload : Value) (storage : Storage) (now : Int) :
    (getExistingCacheData cfg ck key payload storage now).events = [] ∨
      (getExistingCacheData cfg ck key payload storage now).events = [.decodeAttempt] := by
  unfold getExistingCacheData
  split
  · exact Or.inl rfl
  · split
    · exact Or.inl rfl
    · split
      · exact Or.inl rfl
      · split
        · exact Or.inr rfl
        · exact Or.inr rfl

theorem mem_lookupEvents {cfg : CachingConfig} {ck : Value → Value → Bool}
    {key : String} {payload : Value} {storage : Storage} {now : Int} {x : LoadEvent}
    (h : x ∈ (getExistingCacheData cfg ck key payload storage now).events) :
    x = .decodeAttempt := by
  rcases lookupEvents_cases cfg ck key payload storage now with he | he <;> rw [he] at h
  · simp at h
  · simpa using h

theorem flushCache_events_cases (cfg : CachingConfig) (key : String)
    (st : List (String × Value)) (storage : Storage) (now : Int) :
    (flushCacheRun cfg key st storage now).2 = [] ∨
      (flushCacheRun cfg key st storage now).2 = [.storeSet key] := by
  unfold flushCacheRun
  split
  · exact Or.inl rfl
  · split
    · exact Or.inr rfl
    · exact Or.inl rfl

theorem split_unique {α : Type} (x : α) (A B : List α) (hA : x ∉ A) (hB : x ∉ B) :
    ∀ pre post, A ++ x :: B = pre ++ x :: post → pre = A ∧ post = B := by
  induction A with
  | nil =>
    intro pre post h
    cases pre with
    | nil =>
      refine ⟨rfl, ?_⟩
      rw [List.nil_append, List.nil_append] at h
      exact (List.cons.injEq _ _ _ _ ▸ h).2.symm
    | cons p pre' =>
      exfalso
      rw [List.nil_append, List.cons_append] at h
      have h1 := (List.cons.injEq _ _ _ _ ▸ h).1
      have h2 := (List.cons.injEq _ _ _ _ ▸ h).2
      apply hB
      rw [h2]
      exact List.mem_append.mpr (Or.inr (List.mem_cons_self _ _))
  | cons a A' ih =>
    intro pre post h
    cases pre with
    | nil =>
      exfalso
      rw [List.cons_append, List.nil_append] at h
      have h1 := (List.cons.injEq _ _ _ _ ▸ h).1
      exact hA (h1 ▸ List.mem_cons_self _ _)
    | cons p pre' =>
      rw [List.cons_append, List.cons_append] at h
      have h1 := (List.cons.injEq _ _ _ _ ▸ h).1
      have h2 := (List.cons.injEq _ _ _ _ ▸ h).2
      have hA' : x ∉ A' := fun hx => hA (List.mem_cons_of_mem _ hx)
      obtain ⟨hp, hq⟩ := ih hA' pre' post h2
      exact ⟨by rw [hp, h1], hq⟩

/-! ## Characterization of a cache hit -/

theorem lookupChecks_eq_some_iff (cfg : CachingConfig) (ck : Value → Value → Bool)
    (payload : Value) (now : Int) (d : Value) (stv : Value) :
    lookupChecks cfg ck payload now d = some stv ↔
      ∃ ts tsNum, getFieldE d "timestamp" = .ok ts ∧ jsIsFinite ts = true ∧
        getFieldE d "state" = .ok (some stv) ∧ jsTypeofObject (some stv) = true ∧
        toNumber ts = some tsNum ∧ now - cfg.maxAge.getD DEFAULT_MAX_AGE ≤ tsNum ∧
        (cfg.useCheckValidity = true → ck stv payload = true) := by
  unfold lookupChecks
  split
  · rename_i e heq
    constructor
    · intro h
      exact Option.noConfusion h
    · rintro ⟨ts', tsNum, h1, _⟩
      rw [heq] at h1
      exact Except.noConfusion h1
  · rename_i ts heq
    by_cases hfin : jsIsFinite ts = true
    · rw [if_neg (by simp [hfin])]
      split
      · rename_i e heq2
        constructor
        · intro h
          exact Option.noConfusion h
        · rintro ⟨ts', tsNum, h1, h2, h3, _⟩
          rw [heq2] at h3
          exact Except.noConfusion h3
      · rename_i heq2
        constructor
        · intro h
          exact Option.noConfusion h
        · rintro ⟨ts', tsNum, h1, h2, h3, _⟩
          rw [heq2] at h3
          injection h3 with h3
      · rename_i stv0 heq2
        by_cases htype : jsTypeofObject (some stv0) = true
        · rw [if_neg (by simp [htype])]
          split
          · rename_i heq3
            exfalso
            unfold jsIsFinite at hfin
            rw [heq3] at hfin
            exact Bool.noConfusion hfin
          · rename_i tsNum0 heq3
            by_cases hstale : tsNum0 < now - cfg.maxAge.getD DEFAULT_MAX_AGE
            · rw [if_pos hstale]
              constructor
              · intro h
                exact Option.noConfusion h
              · rintro ⟨ts', tsNum, h1, h2, h3, h4, h5, h6, h7⟩
                rw [heq] at h1
                injection h1 with h1
                subst h1
                rw [heq3] at h5
                injection h5 with h5
                subst h5
                omega
            · rw [if_neg hstale]
              by_cases hval : (cfg.useCheckValidity && !(ck stv0 payload)) = true
              · rw [if_pos hval]
                rw [Bool.and_eq_true, Bool.not_eq_true'] at hval
                constructor
                · intro h
                  exact Option.noConfusion h
                · rintro ⟨ts', tsNum, h1, h2, h3, h4, h5, h6, h7⟩
                  rw [heq2] at h3
                  injection h3 with h3
                  injection h3 with h3
                  subst h3
                  have hc := h7 hval.1
                  rw [hval.2] at hc
                  exact Bool.noConfusion hc
              · rw [if_neg hval]
                constructor
                · intro h
                  injection h with h
                  subst h
                  refine ⟨ts, tsNum0, heq, hfin, heq2, htype, heq3, by omega, ?_⟩
                  intro hu
                  rcases Bool.eq_false_or_eq_true (ck stv0 payload) with hc | hc
                  · exact hc
                  · exact absurd (by simp [hu, hc]) hval
                · rintro ⟨ts', tsNum, h1, h2, h3, h4, h5, h6, h7⟩
                  rw [heq2] at h3
                  injection h3 with h3
        · have h0 : jsTypeofObject (some stv0) = false := by
            revert htype
            cases jsTypeofObject (some stv0) <;> simp
          rw [if_pos (by simp [h0])]
          constructor
          · intro h
            exact Option.noConfusion h
          · rintro ⟨ts', tsNum, h1, h2, h3, h4, _⟩
            rw [heq2] at h3
            injection h3 with h3
            injection h3 with h3
            subst h3
            rw [h0] at h4
            exact Bool.noConfusion h4
    · have h0 : jsIsFinite ts = false := by
        revert hfin
        cases jsIsFinite ts <;> simp
      rw [if_pos (by simp [h0])]
      constructor
      · intro h
        exact Option.noConfusion h
      · rintro ⟨ts', tsNum, h1, h2, _⟩
        rw [heq] at h1
        injection h1 with h1
        subst h1
        rw [h0] at h2
        exact Bool.noConfusion h2

theorem getExistingCacheData_hit_some_iff (cfg : CachingConfig)
    (ck : Value → Value → Bool) (key : String) (payload : Value)
    (storage : Storage) (now : Int) (stv : Value) (hkey : key ≠ "") :
    (getExistingCacheData cfg ck key payload storage now).hit = some stv ↔
      ∃ raw d ts tsNum,
        (if cfg.hasStorage then lookupStorage storage key else none) = some raw ∧
        raw ≠ "" ∧ decode raw = some d ∧
        getFieldE d "timestamp" = .ok ts ∧ jsIsFinite ts = true ∧
        getFieldE d "state" = .ok (some stv) ∧ jsTypeofObject (some stv) = true ∧
        toNumber ts = some tsNum ∧ now - cfg.maxAge.getD DEFAULT_MAX_AGE ≤ tsNum ∧
        (cfg.useCheckValidity = true → ck stv payload = true) := by
  unfold getExistingCacheData
  rw [if_neg hkey]
  split
  · rename_i hraw
    constructor
    · intro h
      exact Option.noConfusion h
    · rintro ⟨raw, d, ts, tsNum, h1, _⟩
      rw [hraw] at h1
      exact Option.noConfusion h1
  · rename_i s hraw
    by_cases hs : s = ""
    · rw [if_pos hs]
      constructor
      · intro h
        exact Option.noConfusion h
      · rintro ⟨raw, d, ts, tsNum, h1, h2, _⟩
        rw [hraw] at h1
        injection h1 with h1
        rw [← h1, hs] at h2
        exact absurd rfl h2
    · rw [if_neg hs]
      split
      · rename_i hdec
        constructor
        · intro h
          exact Option.noConfusion h
        · rintro ⟨raw, d, ts, tsNum, h1, h2, h3, _⟩
          rw [hraw] at h1
          injection h1 with h1
          rw [← h1, hdec] at h3
          exact Option.noConfusion h3
      · rename_i d0 hdec
        rw [lookupChecks_eq_some_iff]
        constructor
        · rintro ⟨ts, tsNum, hrest⟩
          exact ⟨s, d0, ts, tsNum, hraw, hs, hdec, hrest⟩
        · rintro ⟨raw, d, ts, tsNum, h1, h2, h3, hrest⟩
          rw [hraw] at h1
          injection h1 with h1
          rw [← h1, hdec] at h3
          injection h3 with h3
          rw [← h3] at hrest
          exact ⟨ts, tsNum, hrest⟩

theorem mem_singleton_event {x y : LoadEvent} (h : x ∈ [y]) : x = y := by
  rcases List.mem_cons.mp h with h | h
  · exact h
  · exact absurd h (List.not_mem_nil x)

theorem mem_storeIf {x : LoadEvent} {c : Bool} {k : String}
    (h : x ∈ (if c = true then [LoadEvent.storeRemove k] else [])) :
    x = .storeRemove k := by
  split at h
  · exact mem_singleton_event h
  · exact absurd h (List.not_mem_nil x)

theorem loadRun_outcome (cfg : CachingConfig) (ck : Value → Value → Bool)
    (refresh : List (String × Value) → List (String × Value) × Option String)
    (defaults : List (String × Value)) (opts payload : Value)
    (storage0 : Storage) (now : Int) :
    ((.applyHit ∈ (loadRun cfg ck refresh defaults opts payload storage0 now).events ∧
        .refreshCall ∉ (loadRun cfg ck refresh defaults opts payload storage0 now).events) ↔
      (getExistingCacheData cfg ck (computedCacheKeyOf cfg opts) payload storage0 now).hit ≠
        none) ∧
    ((.applyHit ∈ (loadRun cfg ck refresh defaults opts payload storage0 now).events ∧
        .refreshCall ∉ (loadRun cfg ck refresh defaults opts payload storage0 now).events) ∨
      (.applyHit ∉ (loadRun cfg ck refresh defaults opts payload storage0 now).events ∧
        .refreshCall ∈ (loadRun cfg ck refresh defaults opts payload storage0 now).events)) := by
  simp only [loadRun]
  split
  · rename_i stv hhit
    have hmemA : LoadEvent.applyHit ∈
        [LoadEvent.resetState] ++
          (getExistingCacheData cfg ck (computedCacheKeyOf cfg opts) payload storage0
            now).events ++ [LoadEvent.applyHit] ++ loadingEvents cfg false :=
      List.mem_append.mpr (Or.inl (List.mem_append.mpr (Or.inr
        (List.mem_cons_self _ _))))
    have hnr : LoadEvent.refreshCall ∉
        [LoadEvent.resetState] ++
          (getExistingCacheData cfg ck (computedCacheKeyOf cfg opts) payload storage0
            now).events ++ [LoadEvent.applyHit] ++ loadingEvents cfg false := by
      intro h
      rcases List.mem_append.mp h with h | h
      · rcases List.mem_append.mp h with h | h
        · rcases List.mem_append.mp h with h | h
          · exact LoadEvent.noConfusion (mem_singleton_event h)
          · exact LoadEvent.noConfusion (mem_lookupEvents h)
        · exact LoadEvent.noConfusion (mem_singleton_event h)
      · exact LoadEvent.noConfusion (mem_loadingEvents h)
    refine ⟨?_, Or.inl ⟨hmemA, hnr⟩⟩
    constructor
    · intro _
      rw [hhit]
      exact fun hc => Option.noConfusion hc
    · intro _
      exact ⟨hmemA, hnr⟩
  · rename_i hhit
    split
    · rename_i st2 msg href
      have hmemR : LoadEvent.refreshCall ∈
          [LoadEvent.resetState] ++
            (getExistingCacheData cfg ck (computedCacheKeyOf cfg opts) payload storage0
              now).events ++ loadingEvents cfg true ++ [LoadEvent.refreshCall] ++
            (if cfg.hasStorage then [LoadEvent.storeRemove (computedCacheKeyOf cfg opts)]
              else []) ++ loadingEvents cfg false :=
        List.mem_append.mpr (Or.inl (List.mem_append.mpr (Or.inl
          (List.mem_append.mpr (Or.inr (List.mem_cons_self _ _))))))
      have hna : LoadEvent.applyHit ∉
          [LoadEvent.resetState] ++
            (getExistingCacheData cfg ck (computedCacheKeyOf cfg opts) payload storage0
              now).events ++ loadingEvents cfg true ++ [LoadEvent.refreshCall] ++
            (if cfg.hasStorage then [LoadEvent.storeRemove (computedCacheKeyOf cfg opts)]
              else []) ++ loadingEvents cfg false := by
        intro h
        rcases List.mem_append.mp h with h | h
        · rcases List.mem_append.mp h with h | h
          · rcases List.mem_append.mp h with h | h
            · rcases List.mem_append.mp h with h | h
              · rcases List.mem_append.mp h with h | h
                · exact LoadEvent.noConfusion (mem_singleton_event h)
                · exact LoadEvent.noConfusion (mem_lookupEvents h)
              · exact LoadEvent.noConfusion (mem_loadingEvents h)
            · exact LoadEvent.noConfusion (mem_singleton_event h)
          · exact LoadEvent.noConfusion (mem_storeIf h)
        · exact LoadEvent.noConfusion (mem_loadingEvents h)
      refine ⟨?_, Or.inr ⟨hna, hmemR⟩⟩
      constructor
      · rintro ⟨_, hnr⟩
        exact absurd hmemR hnr
      · intro hne
        exact absurd hhit hne
    · rename_i st2 href
      have hmemR : LoadEvent.refreshCall ∈
          [LoadEvent.resetState] ++
            (getExistingCacheData cfg ck (computedCacheKeyOf cfg opts) payload storage0
              now).events ++ loadingEvents cfg true ++ [LoadEvent.refreshCall] ++
            (flushCacheRun cfg (computedCacheKeyOf cfg opts) st2 storage0 now).2 ++
            loadingEvents cfg false :=
        List.mem_append.mpr (Or.inl (List.mem_append.mpr (Or.inl
          (List.mem_append.mpr (Or.inr (List.mem_cons_self _ _))))))
      have hna : LoadEvent.applyHit ∉
          [LoadEvent.resetState] ++
            (getExistingCacheData cfg ck (computedCacheKeyOf cfg opts) payload storage0
              now).events ++ loadingEvents cfg true ++ [LoadEvent.refreshCall] ++
            (flushCacheRun cfg (computedCacheKeyOf cfg opts) st2 storage0 now).2 ++
            loadingEvents cfg false := by
        intro h
        rcases List.mem_append.mp h with h | h
        · rcases List.mem_append.mp h with h | h
          · rcases List.mem_append.mp h with h | h
            · rcases List.mem_append.mp h with h | h
              · rcases List.mem_append.mp h with h | h
                · exact LoadEvent.noConfusion (mem_singleton_event h)
                · exact LoadEvent.noConfusion (mem_lookupEvents h)
              · exact LoadEvent.noConfusion (mem_loadingEvents h)
            · exact LoadEvent.noConfusion (mem_singleton_event h)
          · rcases flushCache_events_cases cfg (computedCacheKeyOf cfg opts) st2
              storage0 now with hfl | hfl <;> rw [hfl] at h
            · exact absurd h (List.not_mem_nil _)
            · exact LoadEvent.noConfusion (mem_singleton_event h)
        · exact LoadEvent.noConfusion (mem_loadingEvents h)
      refine ⟨?_, Or.inr ⟨hna, hmemR⟩⟩
      constructor
      · rintro ⟨_, hnr⟩
        exact absurd hmemR hnr
      · intro hne
        exact absurd hhit hne

theorem loadRun_thrown_cases (cfg : CachingConfig) (ck : Value → Value → Bool)
    (refresh : List (String × Value) → List (String × Value) × Option String)
    (defaults : List (String × Value)) (opts payload : Value)
    (storage0 : Storage) (now : Int) :
    (loadRun cfg ck refresh defaults opts payload storage0 now).thrown = none ∨
      ∃ msg, (loadRun cfg ck refresh defaults opts payload storage0 now).thrown =
        some (wrapError cfg.id msg) := by
  simp only [loadRun]
  split
  · exact Or.inl rfl
  · split
    · rename_i st2 msg href
      exact Or.inr ⟨msg, rfl⟩
    · exact Or.inl rfl

theorem loadRun_no_store_before_refresh (cfg : CachingConfig) (ck : Value → Value → Bool)
    (refresh : List (String × Value) → List (String × Value) × Option String)
    (defaults : List (String × Value)) (opts payload : Value)
    (storage0 : Storage) (now : Int) :
    ∀ pre post,
      (loadRun cfg ck refresh defaults opts payload storage0 now).events =
        pre ++ .refreshCall :: post →
      ∀ k', LoadEvent.storeRemove k' ∉ pre ∧ LoadEvent.storeSet k' ∉ pre := by
  have hnotA : ∀ (x : LoadEvent),
      (∀ y, x ≠ .setLoading y) → x ≠ .resetState → x ≠ .decodeAttempt →
      x ∉ [LoadEvent.resetState] ++
        (getExistingCacheData cfg ck (computedCacheKeyOf cfg opts) payload storage0
          now).events ++ loadingEvents cfg true := by
    intro x hsl hrs hda h
    rcases List.mem_append.mp h with h | h
    · rcases List.mem_append.mp h with h | h
      · exact hrs (mem_singleton_event h)
      · exact hda (mem_lookupEvents h)
    · exact hsl true (mem_loadingEvents h)
  simp only [loadRun]
  split
  · rename_i stv hhit
    intro pre post h
    exfalso
    have hmem : LoadEvent.refreshCall ∈
        [LoadEvent.resetState] ++
          (getExistingCacheData cfg ck (computedCacheKeyOf cfg opts) payload storage0
            now).events ++ [LoadEvent.applyHit] ++ loadingEvents cfg false := by
      have h0 : [LoadEvent.resetState] ++
          (getExistingCacheData cfg ck (computedCacheKeyOf cfg opts) payload storage0
            now).events ++ [LoadEvent.applyHit] ++ loadingEvents cfg false =
          pre ++ LoadEvent.refreshCall :: post := h
      rw [h0]
      exact List.mem_append.mpr (Or.inr (List.mem_cons_self _ _))
    rcases List.mem_append.mp hmem with h2 | h2
    · rcases List.mem_append.mp h2 with h2 | h2
      · rcases List.mem_append.mp h2 with h2 | h2
        · exact LoadEvent.noConfusion (mem_singleton_event h2)
        · exact LoadEvent.noConfusion (mem_lookupEvents h2)
      · exact LoadEvent.noConfusion (mem_singleton_event h2)
    · exact LoadEvent.noConfusion (mem_loadingEvents h2)
  · rename_i hhit
    split
    · rename_i st2 msg href
      intro pre post h
      have hform : [LoadEvent.resetState] ++
          (getExistingCacheData cfg ck (computedCacheKeyOf cfg opts) payload storage0
            now).events ++ loadingEvents cfg true ++ [LoadEvent.refreshCall] ++
          (if cfg.hasStorage then [LoadEvent.storeRemove (computedCacheKeyOf cfg opts)]
            else []) ++ loadingEvents cfg false =
          ([LoadEvent.resetState] ++
            (getExistingCacheData cfg ck (computedCacheKeyOf cfg opts) payload storage0
              now).events ++ loadingEvents cfg true) ++
          LoadEvent.refreshCall ::
            ((if cfg.hasStorage
                then [LoadEvent.storeRemove (computedCacheKeyOf cfg opts)] else []) ++
              loadingEvents cfg false) := by
        simp [List.append_assoc]
      have h0 : [LoadEvent.resetState] ++
          (getExistingCacheData cfg ck (computedCacheKeyOf cfg opts) payload storage0
            now).events ++ loadingEvents cfg true ++ [LoadEvent.refreshCall] ++
          (if cfg.hasStorage then [LoadEvent.storeRemove (computedCacheKeyOf cfg opts)]
            else []) ++ loadingEvents cfg false = pre ++ LoadEvent.refreshCall :: post := h
      rw [hform] at h0
      have hB : LoadEvent.refreshCall ∉
          (if cfg.hasStorage
            then [LoadEvent.storeRemove (computedCacheKeyOf cfg opts)] else []) ++
            loadingEvents cfg false := by
        intro hx
        rcases List.mem_append.mp hx with hx | hx
        · exact LoadEvent.noConfusion (mem_storeIf hx)
        · exact LoadEvent.noConfusion (mem_loadingEvents hx)
      obtain ⟨hpre, _⟩ := split_unique LoadEvent.refreshCall _ _
        (hnotA _ (fun y => LoadEvent.noConfusion) (fun hh => LoadEvent.noConfusion hh)
          (fun hh => LoadEvent.noConfusion hh)) hB pre post h0
      subst hpre
      intro k'
      constructor
      · exact hnotA _ (fun y => LoadEvent.noConfusion) (fun hh => LoadEvent.noConfusion hh)
          (fun hh => LoadEvent.noConfusion hh)
      · exact hnotA _ (fun y => LoadEvent.noConfusion) (fun hh => LoadEvent.noConfusion hh)
          (fun hh => LoadEvent.noConfusion hh)
    · rename_i st2 href
      intro pre post h
      have hform : [LoadEvent.resetState] ++
          (getExistingCacheData cfg ck (computedCacheKeyOf cfg opts) payload storage0
            now).events ++ loadingEvents cfg true ++ [LoadEvent.refreshCall] ++
          (flushCacheRun cfg (computedCacheKeyOf cfg opts) st2 storage0 now).2 ++
          loadingEvents cfg false =
          ([LoadEvent.resetState] ++
            (getExistingCacheData cfg ck (computedCacheKeyOf cfg opts) payload storage0
              now).events ++ loadingEvents cfg true) ++
          LoadEvent.refreshCall ::
            ((flushCacheRun cfg (computedCacheKeyOf cfg opts) st2 storage0 now).2 ++
              loadingEvents cfg false) := by
        simp [List.append_assoc]
      have h0 : [LoadEvent.resetState] ++
          (getExistingCacheData cfg ck (computedCacheKeyOf cfg opts) payload storage0
            now).events ++ loadingEvents cfg true ++ [LoadEvent.refreshCall] ++
          (flushCacheRun cfg (computedCacheKeyOf cfg opts) st2 storage0 now).2 ++
          loadingEvents cfg false = pre ++ LoadEvent.refreshCall :: post := h
      rw [hform] at h0
      have hB : LoadEvent.refreshCall ∉
          (flushCacheRun cfg (computedCacheKeyOf cfg opts) st2 storage0 now).2 ++
            loadingEvents cfg false := by
        intro hx
        rcases List.mem_append.mp hx with hx | hx
        · rcases flushCache_events_cases cfg (computedCacheKeyOf cfg opts) st2 storage0 now
            with hfl | hfl <;> rw [hfl] at hx
          · exact absurd hx (List.not_mem_nil _)
          · exact LoadEvent.noConfusion (mem_singleton_event hx)
        · exact LoadEvent.noConfusion (mem_loadingEvents hx)
      obtain ⟨hpre, _⟩ := split_unique LoadEvent.refreshCall _ _
        (hnotA _ (fun y => LoadEvent.noConfusion) (fun hh => LoadEvent.noConfusion hh)
          (fun hh => LoadEvent.noConfusion hh)) hB pre post h0
      subst hpre
      intro k'
      constructor
      · exact hnotA _ (fun y => LoadEvent.noConfusion) (fun hh => LoadEvent.noConfusion hh)
          (fun hh => LoadEvent.noConfusion hh)
      · exact hnotA _ (fun y => LoadEvent.noConfusion) (fun hh => LoadEvent.noConfusion hh)
          (fun hh => LoadEvent.noConfusion hh)

theorem lookupChecks_corrupt_none (cfg : CachingConfig) (ck : Value → Value → Bool)
    (payload : Value) (now : Int) (d : Value)
    (hc : getFieldE d "timestamp" = .error () ∨
      ∃ ts, getFieldE d "timestamp" = .ok ts ∧
        (jsIsFinite ts = false ∨
          ∃ st, getFieldE d "state" = .ok st ∧ jsTypeofObject st = false)) :
    lookupChecks cfg ck payload now d = none := by
  unfold lookupChecks
  split
  · rfl
  · rename_i ts heq
    rcases hc with hc | ⟨ts', hts, hc⟩
    · rw [hc] at heq
      exact Except.noConfusion heq
    · rw [hts] at heq
      injection heq with heq
      subst heq
      rcases hc with hc | ⟨st, hst, hc⟩
      · rw [if_pos (by simp [hc])]
      · by_cases hfin : jsIsFinite ts' = true
        · rw [if_neg (by simp [hfin])]
          split
          · rfl
          · rfl
          · rename_i stv0 heq2
            rw [hst] at heq2
            injection heq2 with heq2
            rw [heq2] at hc
            rw [if_pos (by simp [hc])]
        · have h0 : jsIsFinite ts' = false := by
            revert hfin
            cases jsIsFinite ts' <;> simp
          rw [if_pos (by simp [h0])]

theorem getExistingCacheData_corrupt_none (cfg : CachingConfig)
    (ck : Value → Value → Bool) (key : String) (payload : Value)
    (storage0 : Storage) (now : Int) (raw : String)
    (hkey : key ≠ "") (hs : cfg.hasStorage = true)
    (hraw : lookupStorage storage0 key = some raw) (hne : raw ≠ "")
    (hcorrupt : decode raw = none ∨
      ∃ d, decode raw = some d ∧
        (getFieldE d "timestamp" = .error () ∨
          ∃ ts, getFieldE d "timestamp" = .ok ts ∧
            (jsIsFinite ts = false ∨
              ∃ st, getFieldE d "state" = .ok st ∧ jsTypeofObject st = false))) :
    (getExistingCacheData cfg ck key payload storage0 now).hit = none := by
  unfold getExistingCacheData
  rw [if_neg hkey]
  split
  · rfl
  · rename_i s hsome
    rw [if_pos hs, hraw] at hsome
    injection hsome with hsome
    subst hsome
    rw [if_neg hne]
    split
    · rfl
    · rename_i d0 hdec
      rcases hcorrupt with hc | ⟨d, hd, hc⟩
      · rw [hc] at hdec
        exact Option.noConfusion hdec
      · rw [hd] at hdec
        injection hdec with hdec
        subst hdec
        exact lookupChecks_corrupt_none cfg ck payload now d hc

/-! ## The claims -/

/-- C1: for every pair of acyclic structured values that are deeply
equal except for the declaration order of mapping keys at any nesting
depth (related by KeyPerm), objectRepresentation returns the identical
string. -/
theorem C1_objectRepresentation_key_order_independence (m1 m2 : Value)
    (h : KeyPerm m1 m2) : objectRepresentation m1 = objectRepresentation m2 :=
  objectRepresentation_keyPerm h

theorem C1_objectRepresentation_key_order_independence_witness :
    KeyPerm (Value.obj [("a", .num 1), ("b", .num 2)])
      (Value.obj [("b", .num 2), ("a", .num 1)]) ∧
    objectRepresentation (Value.obj [("a", .num 1), ("b", .num 2)]) =
      objectRepresentation (Value.obj [("b", .num 2), ("a", .num 1)]) := by
  have kp : KeyPerm (Value.obj [("a", .num 1), ("b", .num 2)])
      (Value.obj [("b", .num 2), ("a", .num 1)]) := by
    have h := KeyPerm.obj [("a", .num 1), ("b", .num 2)]
      [("b", (.num 2, .num 2)), ("a", (.num 1, .num 1))]
      (List.Perm.swap ("b", Value.num 2) ("a", Value.num 1) [])
      (by
        intro e he
        rcases List.mem_cons.mp he with rfl | he2
        · exact KeyPerm.num 2
        rcases List.mem_cons.mp he2 with rfl | he3
        · exact KeyPerm.num 1
        · exact absurd he3 (List.not_mem_nil e))
      (by decide)
    exact h
  exact ⟨kp, C1_objectRepresentation_key_order_independence _ _ kp⟩

/-- C2: for every representable acyclic Value (objects having pairwise
distinct keys), including values containing text outside the
single-byte range, decode of encode returns the value itself. -/
theorem C2_decode_encode_round_trip (v : Value) (_hwf : wfV v = true) :
    decode (encode v) = some v :=
  decode_encode v

theorem C2_decode_encode_round_trip_witness :
    wfV v2w = true ∧ decode (encode v2w) = some v2w :=
  ⟨rfl, C2_decode_encode_round_trip v2w rfl⟩

/-- C3: for every value whose serialized text contains only
single-byte code units, encode agrees character for character with the
plain single-byte base64 encoding of that text and its output does not
begin with the exclamation marker. -/
theorem C3_plain_base64_backward_compat (v : Value)
    (h : (utf16Encode (stringify v)).all (fun u => u ≤ 255) = true) :
    encode v = plainBase64 (stringify v) ∧
    ∀ c rest, (encode v).data = c :: rest → c ≠ '!' := by
  have henc : encodeUnits v = btoa (utf16Encode (stringify v)) := by
    unfold encodeUnits
    rw [if_pos h]
  constructor
  · unfold encode plainBase64
    rw [henc]
  · intro c rest hc hcontra
    have hc2 : (encodeUnits v).map Char.ofNat = c :: rest := hc
    rw [henc] at hc2
    cases hb : btoa (utf16Encode (stringify v)) with
    | nil =>
      rw [hb] at hc2
      exact List.noConfusion hc2
    | cons u us =>
      rw [hb] at hc2
      simp only [List.map_cons] at hc2
      have h1 := (List.cons.injEq _ _ _ _ ▸ hc2).1
      have hprops := btoa_mem_props (utf16Encode (stringify v)) u
        (hb ▸ List.mem_cons_self u us)
      apply hprops.1
      have h2 : (Char.ofNat u).toNat = 33 := by
        rw [h1, hcontra]
        rfl
      rw [char_toNat_ofNat_lt (lt_trans hprops.2 (by norm_num))] at h2
      exact h2

theorem C3_plain_base64_backward_compat_witness :
    (utf16Encode (stringify v3w)).all (fun u => u ≤ 255) = true ∧
    encode v3w = plainBase64 (stringify v3w) :=
  ⟨rfl, (C3_plain_base64_backward_compat v3w rfl).1⟩

/-- C9: a configured loading-flag field that does not name a boolean
field of the state defaults makes defineCachedStore fail with a
configuration error at construction time; no store definition is
produced. -/
theorem C9_loading_key_validation (cfg : CachingConfig)
    (defaults : List (String × Value)) (k : String)
    (hk : cfg.loadingKey = some k) (hne : k ≠ "")
    (hnb : ∀ b, lookupKey defaults k ≠ some (.bool b)) :
    defineCachedStoreInit cfg defaults =
      .error "Failed to initialize store: invalid loading key" := by
  unfold defineCachedStoreInit
  rw [if_pos]
  rw [Bool.and_eq_true]
  constructor
  · unfold loadingKeyTruthy
    rw [hk]
    simp [hne]
  · rw [Bool.or_eq_true]
    right
    unfold isBoolField
    rw [hk]
    show (!(match lookupKey defaults k with
      | some (Value.bool _) => true
      | _ => false)) = true
    cases hl : lookupKey defaults k with
    | none => rfl
    | some v =>
      cases v with
      | bool b => exact absurd hl (hnb b)
      | null => rfl
      | num n => rfl
      | str s => rfl
      | arr xs => rfl
      | obj kvs => rfl

theorem C9_loading_key_validation_witness :
    (cfg9w.loadingKey = some "loading" ∧ "loading" ≠ "" ∧
      ∀ b, lookupKey defaults9w "loading" ≠ some (.bool b)) ∧
    defineCachedStoreInit cfg9w defaults9w =
      .error "Failed to initialize store: invalid loading key" := by
  have hnb : ∀ b, lookupKey defaults9w "loading" ≠ some (.bool b) := by
    intro b h
    have h2 : some (Value.num 0) = some (Value.bool b) := h
    injection h2 with h2
    exact Value.noConfusion h2
  exact ⟨⟨rfl, by decide, hnb⟩,
    C9_loading_key_validation cfg9w defaults9w "loading" rfl (by decide) hnb⟩

/-- C10: a stored empty string under the computed cache key is treated
exactly like an absent entry: the decoder never runs and the load is a
miss with the refresh routine invoked. -/
theorem C10_empty_string_is_miss (cfg : CachingConfig) (ck : Value → Value → Bool)
    (refresh : List (String × Value) → List (String × Value) × Option String)
    (defaults : List (String × Value)) (opts payload : Value)
    (storage0 : Storage) (now : Int)
    (hs : cfg.hasStorage = true)
    (hraw : lookupStorage storage0 (computedCacheKeyOf cfg opts) = some "") :
    .decodeAttempt ∉ (loadRun cfg ck refresh defaults opts payload storage0 now).events ∧
    .applyHit ∉ (loadRun cfg ck refresh defaults opts payload storage0 now).events ∧
    .refreshCall ∈ (loadRun cfg ck refresh defaults opts payload storage0 now).events := by
  have hlk : getExistingCacheData cfg ck (computedCacheKeyOf cfg opts) payload storage0
      now = ⟨none, []⟩ := by
    unfold getExistingCacheData
    rw [if_neg (computedCacheKeyOf_ne_empty cfg opts)]
    split
    · rfl
    · rename_i s hsome
      rw [if_pos hs, hraw] at hsome
      injection hsome with hsome
      subst hsome
      rw [if_pos rfl]
  have hout := loadRun_outcome cfg ck refresh defaults opts payload storage0 now
  have hmiss : (getExistingCacheData cfg ck (computedCacheKeyOf cfg opts) payload storage0
      now).hit = none := by rw [hlk]
  have hdisj := hout.2
  rcases hdisj with ⟨hA, hR⟩ | ⟨hA, hR⟩
  · exfalso
    exact (hout.1.mp ⟨hA, hR⟩) hmiss
  · refine ⟨?_, hA, hR⟩
    intro hd
    have hev : (getExistingCacheData cfg ck (computedCacheKeyOf cfg opts) payload storage0
        now).events = [] := by rw [hlk]
    simp only [loadRun] at hd
    split at hd
    · rename_i stv hhit
      rw [hmiss] at hhit
      exact Option.noConfusion hhit
    · split at hd
      · rename_i st2 msg href
        rcases List.mem_append.mp hd with h | h
        · rcases List.mem_append.mp h with h | h
          · rcases List.mem_append.mp h with h | h
            · rcases List.mem_append.mp h with h | h
              · rcases List.mem_append.mp h with h | h
                · exact LoadEvent.noConfusion (mem_singleton_event h)
                · rw [hev] at h
                  exact absurd h (List.not_mem_nil _)
              · exact LoadEvent.noConfusion (mem_loadingEvents h)
            · exact LoadEvent.noConfusion (mem_singleton_event h)
          · exact LoadEvent.noConfusion (mem_storeIf h)
        · exact LoadEvent.noConfusion (mem_loadingEvents h)
      · rename_i st2 href
        rcases List.mem_append.mp hd with h | h
        · rcases List.mem_append.mp h with h | h
          · rcases List.mem_append.mp h with h | h
            · rcases List.mem_append.mp h with h | h
              · rcases List.mem_append.mp h with h | h
                · exact LoadEvent.noConfusion (mem_singleton_event h)
                · rw [hev] at h
                  exact absurd h (List.not_mem_nil _)
              · exact LoadEvent.noConfusion (mem_loadingEvents h)
            · exact LoadEvent.noConfusion (mem_singleton_event h)
          · rcases flushCache_events_cases cfg (computedCacheKeyOf cfg opts) st2
              storage0 now with hfl | hfl <;> rw [hfl] at h
            · exact absurd h (List.not_mem_nil _)
            · exact LoadEvent.noConfusion (mem_singleton_event h)
        · exact LoadEvent.noConfusion (mem_loadingEvents h)

theorem C10_empty_string_is_miss_witness :
    cfg10w.hasStorage = true ∧
    lookupStorage [(key10w, "")] (computedCacheKeyOf cfg10w .null) = some "" ∧
    (.decodeAttempt ∉ (loadRun cfg10w trueCk idRefresh [] .null .null
        [(key10w, "")] 1000).events ∧
      .applyHit ∉ (loadRun cfg10w trueCk idRefresh [] .null .null
        [(key10w, "")] 1000).events ∧
      .refreshCall ∈ (loadRun cfg10w trueCk idRefresh [] .null .null
        [(key10w, "")] 1000).events) :=
  ⟨rfl, by rfl,
    C10_empty_string_is_miss cfg10w trueCk idRefresh [] .null .null
      [(key10w, "")] 1000 rfl (by rfl)⟩

/-- C4 counterexample to the original wording: a $load call whose
stored entry carries a string (not a number) in the timestamp field is
nevertheless applied as a cache hit and the refresh routine is not
invoked, because the source's isFinite check coerces the string to a
number before testing it. -/
theorem C4_counterexample :
    (.applyHit ∈ r4c.events ∧ .refreshCall ∉ r4c.events) ∧
    decode (encode entry4c) = some entry4c ∧
    getFieldE entry4c "timestamp" = .ok (some (.str "99999999999999")) ∧
    ∀ n : Int, getFieldE entry4c "timestamp" ≠ .ok (some (.num n)) := by
  have hev : r4c.events = [.resetState, .decodeAttempt, .applyHit] := by rfl
  refine ⟨⟨?_, ?_⟩, by rfl, by rfl, ?_⟩
  · rw [hev]
    exact List.mem_cons_of_mem _ (List.mem_cons_of_mem _ (List.mem_cons_self _ _))
  · rw [hev]
    intro h
    rcases List.mem_cons.mp h with h | h
    · exact LoadEvent.noConfusion h
    rcases List.mem_cons.mp h with h | h
    · exact LoadEvent.noConfusion h
    rcases List.mem_cons.mp h with h | h
    · exact LoadEvent.noConfusion h
    · exact absurd h (List.not_mem_nil _)
  · intro n h
    have h2 : (Except.ok (some (Value.str "99999999999999")) :
        Except Unit (Option Value)) = .ok (some (.num n)) := h
    injection h2 with h2
    injection h2 with h2
    exact Value.noConfusion h2

/-- C4 (amended): a $load call applies the stored entry as a hit and
skips the refresh routine exactly when the entry is present and
nonempty, decodes, has a timestamp that survives the isFinite check
after JavaScript number coercion (finite numbers, numeric strings,
booleans and null all pass), has an object-typed state, its coerced
timestamp is at least now minus maxAge (default 86400000), and the
configured validity callback accepts it; in every other case the call
is a miss and the refresh routine is invoked. -/
theorem C4_hit_characterization (cfg : CachingConfig) (ck : Value → Value → Bool)
    (refresh : List (String × Value) → List (String × Value) × Option String)
    (defaults : List (String × Value)) (opts payload : Value)
    (storage0 : Storage) (now : Int) :
    ((.applyHit ∈ (loadRun cfg ck refresh defaults opts payload storage0 now).events ∧
        .refreshCall ∉ (loadRun cfg ck refresh defaults opts payload storage0 now).events) ∨
      (.applyHit ∉ (loadRun cfg ck refresh defaults opts payload storage0 now).events ∧
        .refreshCall ∈ (loadRun cfg ck refresh defaults opts payload storage0 now).events)) ∧
    ((.applyHit ∈ (loadRun cfg ck refresh defaults opts payload storage0 now).events ∧
        .refreshCall ∉ (loadRun cfg ck refresh defaults opts payload storage0 now).events) ↔
      ∃ stv raw d ts tsNum,
        (if cfg.hasStorage then lookupStorage storage0 (computedCacheKeyOf cfg opts)
          else none) = some raw ∧
        raw ≠ "" ∧ decode raw = some d ∧
        getFieldE d "timestamp" = .ok ts ∧ jsIsFinite ts = true ∧
        getFieldE d "state" = .ok (some stv) ∧ jsTypeofObject (some stv) = true ∧
        toNumber ts = some tsNum ∧ now - cfg.maxAge.getD DEFAULT_MAX_AGE ≤ tsNum ∧
        (cfg.useCheckValidity = true → ck stv payload = true)) := by
  have hout := loadRun_outcome cfg ck refresh defaults opts payload storage0 now
  refine ⟨hout.2, hout.1.trans ?_⟩
  rw [Option.ne_none_iff_exists']
  exact exists_congr fun stv =>
    getExistingCacheData_hit_some_iff cfg ck (computedCacheKeyOf cfg opts) payload
      storage0 now stv (computedCacheKeyOf_ne_empty cfg opts)

/-- C5: with a configured loading flag, any write of true to the flag
is immediately followed by the refresh invocation (so it never happens
during the reset or the lookup, and only after the miss is decided),
true is written at most once, and a load that resolves as a pure hit
never sets the flag true. -/
theorem C5_loading_flag_timing (cfg : CachingConfig) (ck : Value → Value → Bool)
    (refresh : List (String × Value) → List (String × Value) × Option String)
    (defaults : List (String × Value)) (opts payload : Value)
    (storage0 : Storage) (now : Int)
    (hlk : loadingKeyTruthy cfg = true) :
    (∀ pre post,
      (loadRun cfg ck refresh defaults opts payload storage0 now).events =
        pre ++ .setLoading true :: post →
      post.head? = some .refreshCall ∧
        LoadEvent.setLoading true ∉ pre ∧ LoadEvent.setLoading true ∉ post) ∧
    (.applyHit ∈ (loadRun cfg ck refresh defaults opts payload storage0 now).events →
      LoadEvent.setLoading true ∉
        (loadRun cfg ck refresh defaults opts payload storage0 now).events) := by
  have hle : loadingEvents cfg true = [.setLoading true] := by
    unfold loadingEvents
    rw [if_pos hlk]
  have hlf : loadingEvents cfg false = [.setLoading false] := by
    unfold loadingEvents
    rw [if_pos hlk]
  have hsl_ne_slf : LoadEvent.setLoading true ≠ LoadEvent.setLoading false := by
    intro h
    injection h with h
    exact Bool.noConfusion h
  simp only [loadRun]
  split
  · rename_i stv hhit
    have hnot : LoadEvent.setLoading true ∉
        [LoadEvent.resetState] ++
          (getExistingCacheData cfg ck (computedCacheKeyOf cfg opts) payload storage0
            now).events ++ [LoadEvent.applyHit] ++ loadingEvents cfg false := by
      intro h
      rcases List.mem_append.mp h with h | h
      · rcases List.mem_append.mp h with h | h
        · rcases List.mem_append.mp h with h | h
          · exact LoadEvent.noConfusion (mem_singleton_event h)
          · exact LoadEvent.noConfusion (mem_lookupEvents h)
        · exact LoadEvent.noConfusion (mem_singleton_event h)
      · exact hsl_ne_slf (mem_loadingEvents h)
    constructor
    · intro pre post h
      exfalso
      apply hnot
      have h0 : [LoadEvent.resetState] ++
          (getExistingCacheData cfg ck (computedCacheKeyOf cfg opts) payload storage0
            now).events ++ [LoadEvent.applyHit] ++ loadingEvents cfg false =
          pre ++ LoadEvent.setLoading true :: post := h
      rw [h0]
      exact List.mem_append.mpr (Or.inr (List.mem_cons_self _ _))
    · intro _
      exact hnot
  · rename_i hhit
    have hA : LoadEvent.setLoading true ∉
        [LoadEvent.resetState] ++
          (getExistingCacheData cfg ck (computedCacheKeyOf cfg opts) payload storage0
            now).events := by
      intro h
      rcases List.mem_append.mp h with h | h
      · exact LoadEvent.noConfusion (mem_singleton_event h)
      · exact LoadEvent.noConfusion (mem_lookupEvents h)
    split
    · rename_i st2 msg href
      rw [hle, hlf]
      have hform : [LoadEvent.resetState] ++
          (getExistingCacheData cfg ck (computedCacheKeyOf cfg opts) payload storage0
            now).events ++ [LoadEvent.setLoading true] ++ [LoadEvent.refreshCall] ++
          (if cfg.hasStorage then [LoadEvent.storeRemove (computedCacheKeyOf cfg opts)]
            else []) ++ [LoadEvent.setLoading false] =
          ([LoadEvent.resetState] ++
            (getExistingCacheData cfg ck (computedCacheKeyOf cfg opts) payload storage0
              now).events) ++
          LoadEvent.setLoading true ::
            (LoadEvent.refreshCall ::
              ((if cfg.hasStorage
                  then [LoadEvent.storeRemove (computedCacheKeyOf cfg opts)] else []) ++
                [LoadEvent.setLoading false])) := by
        simp [List.append_assoc]
      have hB : LoadEvent.setLoading true ∉
          LoadEvent.refreshCall ::
            ((if cfg.hasStorage
                then [LoadEvent.storeRemove (computedCacheKeyOf cfg opts)] else []) ++
              [LoadEvent.setLoading false]) := by
        intro h
        rcases List.mem_cons.mp h with h | h
        · exact LoadEvent.noConfusion h
        rcases List.mem_append.mp h with h | h
        · exact LoadEvent.noConfusion (mem_storeIf h)
        · exact hsl_ne_slf (mem_singleton_event h)
      constructor
      · intro pre post h
        have h0 : [LoadEvent.resetState] ++
            (getExistingCacheData cfg ck (computedCacheKeyOf cfg opts) payload storage0
              now).events ++ [LoadEvent.setLoading true] ++ [LoadEvent.refreshCall] ++
            (if cfg.hasStorage then [LoadEvent.storeRemove (computedCacheKeyOf cfg opts)]
              else []) ++ [LoadEvent.setLoading false] =
            pre ++ LoadEvent.setLoading true :: post := h
        rw [hform] at h0
        obtain ⟨hpre, hpost⟩ := split_unique (LoadEvent.setLoading true) _ _ hA hB
          pre post h0
        subst hpre
        subst hpost
        exact ⟨rfl, hA, hB⟩
      · intro hmem
        exfalso
        rcases List.mem_append.mp hmem with h | h
        · rcases List.mem_append.mp h with h | h
          · rcases List.mem_append.mp h with h | h
            · rcases List.mem_append.mp h with h | h
              · rcases List.mem_append.mp h with h | h
                · exact LoadEvent.noConfusion (mem_singleton_event h)
                · exact LoadEvent.noConfusion (mem_lookupEvents h)
              · exact LoadEvent.noConfusion (mem_singleton_event h)
            · exact LoadEvent.noConfusion (mem_singleton_event h)
          · exact LoadEvent.noConfusion (mem_storeIf h)
        · exact LoadEvent.noConfusion (mem_singleton_event h)
    · rename_i st2 href
      rw [hle, hlf]
      have hform : [LoadEvent.resetState] ++
          (getExistingCacheData cfg ck (computedCacheKeyOf cfg opts) payload storage0
            now).events ++ [LoadEvent.setLoading true] ++ [LoadEvent.refreshCall] ++
          (flushCacheRun cfg (computedCacheKeyOf cfg opts) st2 storage0 now).2 ++
          [LoadEvent.setLoading false] =
          ([LoadEvent.resetState] ++
            (getExistingCacheData cfg ck (computedCacheKeyOf cfg opts) payload storage0
              now).events) ++
          LoadEvent.setLoading true ::
            (LoadEvent.refreshCall ::
              ((flushCacheRun cfg (computedCacheKeyOf cfg opts) st2 storage0 now).2 ++
                [LoadEvent.setLoading false])) := by
        simp [List.append_assoc]
      have hB : LoadEvent.setLoading true ∉
          LoadEvent.refreshCall ::
            ((flushCacheRun cfg (computedCacheKeyOf cfg opts) st2 storage0 now).2 ++
              [LoadEvent.setLoading false]) := by
        intro h
        rcases List.mem_cons.mp h with h | h
        · exact LoadEvent.noConfusion h
        rcases List.mem_append.mp h with h | h
        · rcases flushCache_events_cases cfg (computedCacheKeyOf cfg opts) st2 storage0
            now with hfl | hfl <;> rw [hfl] at h
          · exact absurd h (List.not_mem_nil _)
          · exact LoadEvent.noConfusion (mem_singleton_event h)
        · exact hsl_ne_slf (mem_singleton_event h)
      constructor
      · intro pre post h
        have h0 : [LoadEvent.resetState] ++
            (getExistingCacheData cfg ck (computedCacheKeyOf cfg opts) payload storage0
              now).events ++ [LoadEvent.setLoading true] ++ [LoadEvent.refreshCall] ++
            (flushCacheRun cfg (computedCacheKeyOf cfg opts) st2 storage0 now).2 ++
            [LoadEvent.setLoading false] =
            pre ++ LoadEvent.setLoading true :: post := h
        rw [hform] at h0
        obtain ⟨hpre, hpost⟩ := split_unique (LoadEvent.setLoading true) _ _ hA hB
          pre post h0
        subst hpre
        subst hpost
        exact ⟨rfl, hA, hB⟩
      · intro hmem
        exfalso
        rcases List.mem_append.mp hmem with h | h
        · rcases List.mem_append.mp h with h | h
          · rcases List.mem_append.mp h with h | h
            · rcases List.mem_append.mp h with h | h
              · rcases List.mem_append.mp h with h | h
                · exact LoadEvent.noConfusion (mem_singleton_event h)
                · exact LoadEvent.noConfusion (mem_lookupEvents h)
              · exact LoadEvent.noConfusion (mem_singleton_event h)
            · exact LoadEvent.noConfusion (mem_singleton_event h)
          · rcases flushCache_events_cases cfg (computedCacheKeyOf cfg opts) st2 storage0
              now with hfl | hfl <;> rw [hfl] at h
            · exact absurd h (List.not_mem_nil _)
            · exact LoadEvent.noConfusion (mem_singleton_event h)
        · exact LoadEvent.noConfusion (mem_singleton_event h)

theorem C5_loading_flag_timing_witness :
    loadingKeyTruthy cfg5w = true ∧
    (LoadEvent.setLoading true ∉
        ([LoadEvent.resetState] : List LoadEvent) ∧
      ([LoadEvent.refreshCall, LoadEvent.storeSet key5w,
        LoadEvent.setLoading false] : List LoadEvent).head? =
        some LoadEvent.refreshCall) := by
  have h := (C5_loading_flag_timing cfg5w trueCk idRefresh defs5w .null .null [] 1000
      rfl).1 [LoadEvent.resetState]
    [LoadEvent.refreshCall, LoadEvent.storeSet key5w, LoadEvent.setLoading false]
    (by rfl)
  exact ⟨rfl, h.2.1, h.1⟩

/-- C6 counterexample to the original wording: the source performs no
state rollback — when refresh throws after mutating the state, the
mutation persists and the data state does not equal the post-reset
defaults (here the defaults map x to 0 but the final state maps x to
5).  The storage removal and the wrapped re-raised error do hold. -/
theorem C6_counterexample :
    r6c.thrown = some (wrapError "failstore" "boom") ∧
    lookupStorage r6c.storage (computedCacheKeyOf cfg6c .null) = none ∧
    r6c.data = [("x", .num 5)] ∧
    r6c.data ≠ [("x", .num 0)] := by
  refine ⟨by rfl, by rfl, by rfl, ?_⟩
  intro h
  have h2 : ([("x", Value.num 5)] : List (String × Value)) = [("x", Value.num 0)] := h
  injection h2 with h3 h4
  injection h3 with h5 h6
  injection h6 with h7
  exact absurd h7 (by decide)

/-- C6 (amended): when the refresh routine reports a failure, the
storage entry at the computed address is removed, the loading flag (if
configured) ends false, and the error re-raised to the caller is the
original message wrapped with the store id; the final data state is
the refresh-mutated state with the loading flag patched false — the
source performs no rollback to the post-reset defaults. -/
theorem C6_refresh_failure (cfg : CachingConfig) (ck : Value → Value → Bool)
    (refresh : List (String × Value) → List (String × Value) × Option String)
    (defaults : List (String × Value)) (opts payload : Value)
    (storage0 : Storage) (now : Int) (st2 : List (String × Value)) (msg : String)
    (hmiss : (getExistingCacheData cfg ck (computedCacheKeyOf cfg opts) payload storage0
      now).hit = none)
    (href : refresh (patchLoading cfg defaults true) = (st2, some msg)) :
    (loadRun cfg ck refresh defaults opts payload storage0 now).thrown =
      some (wrapError cfg.id msg) ∧
    (cfg.hasStorage = true →
      lookupStorage (loadRun cfg ck refresh defaults opts payload storage0 now).storage
        (computedCacheKeyOf cfg opts) = none) ∧
    (loadRun cfg ck refresh defaults opts payload storage0 now).data =
      patchLoading cfg st2 false ∧
    (loadingKeyTruthy cfg = true →
      lookupKey (loadRun cfg ck refresh defaults opts payload storage0 now).data
        (cfg.loadingKey.getD "") = some (.bool false)) := by
  simp only [loadRun]
  split
  · rename_i stv hhit
    rw [hmiss] at hhit
    exact Option.noConfusion hhit
  · rename_i hhit
    split
    · rename_i st2' msg' href'
      rw [href] at href'
      injection href' with ha hb
      injection hb with hb
      subst ha
      subst hb
      refine ⟨rfl, ?_, rfl, ?_⟩
      · intro hs
        show lookupStorage (if cfg.hasStorage then removeItem storage0
          (computedCacheKeyOf cfg opts) else storage0) (computedCacheKeyOf cfg opts) = none
        rw [if_pos hs]
        exact lookupStorage_removeItem storage0 _
      · intro hlkt
        show lookupKey (patchLoading cfg st2 false) (cfg.loadingKey.getD "") =
          some (.bool false)
        unfold patchLoading
        rw [if_pos hlkt]
        exact lookupKey_setField _ _ _
    · rename_i st2' href'
      rw [href] at href'
      injection href' with ha hb
      exact absurd hb (by simp)

theorem C6_refresh_failure_witness :
    ((getExistingCacheData cfg6w trueCk (computedCacheKeyOf cfg6w .null) .null []
        2000).hit = none ∧
      rf6w (patchLoading cfg6w defs6w true) = (st6w, some "boom")) ∧
    (loadRun cfg6w trueCk rf6w defs6w .null .null [] 2000).thrown =
      some (wrapError "failwit" "boom") ∧
    lookupKey (loadRun cfg6w trueCk rf6w defs6w .null .null [] 2000).data "loading" =
      some (.bool false) := by
  have h := C6_refresh_failure cfg6w trueCk rf6w defs6w .null .null [] 2000 st6w "boom"
    (by rfl) (by rfl)
  exact ⟨⟨by rfl, by rfl⟩, h.1, h.2.2.2 rfl⟩

/-- C7 counterexample to the original wording: an entry whose
timestamp field holds a string — which is not a finite number — is not
treated as a cache miss; the refresh routine is not invoked and the
entry is applied as a hit, because the source's isFinite check coerces
the string before testing. -/
theorem C7_counterexample :
    getFieldE entry7c "timestamp" = .ok (some (.str "88888888888888")) ∧
    (∀ n : Int, getFieldE entry7c "timestamp" ≠ .ok (some (.num n))) ∧
    LoadEvent.refreshCall ∉ r7c.events ∧ LoadEvent.applyHit ∈ r7c.events := by
  have hev : r7c.events = [.resetState, .decodeAttempt, .applyHit] := by rfl
  refine ⟨by rfl, ?_, ?_, ?_⟩
  · intro n h
    have h2 : (Except.ok (some (Value.str "88888888888888")) :
        Except Unit (Option Value)) = .ok (some (.num n)) := h
    injection h2 with h2
    injection h2 with h2
    exact Value.noConfusion h2
  · rw [hev]
    intro h
    rcases List.mem_cons.mp h with h | h
    · exact LoadEvent.noConfusion h
    rcases List.mem_cons.mp h with h | h
    · exact LoadEvent.noConfusion h
    rcases List.mem_cons.mp h with h | h
    · exact LoadEvent.noConfusion h
    · exact absurd h (List.not_mem_nil _)
  · rw [hev]
    exact List.mem_cons_of_mem _ (List.mem_cons_of_mem _ (List.mem_cons_self _ _))

/-- C7 (amended): an entry that fails to decode, or whose timestamp
read throws or fails the coercing isFinite check, or whose state field
is not object-typed, makes the load a miss: no hit is applied, the
refresh routine is invoked, anything re-raised is a wrapped refresh
error (a decode error never reaches the caller), and no storage write
or removal happens before the refresh invocation — the corrupt entry
is left in place by the lookup. -/
theorem C7_corrupt_entry_is_miss (cfg : CachingConfig) (ck : Value → Value → Bool)
    (refresh : List (String × Value) → List (String × Value) × Option String)
    (defaults : List (String × Value)) (opts payload : Value)
    (storage0 : Storage) (now : Int) (raw : String)
    (hs : cfg.hasStorage = true)
    (hraw : lookupStorage storage0 (computedCacheKeyOf cfg opts) = some raw)
    (hne : raw ≠ "")
    (hcorrupt : decode raw = none ∨
      ∃ d, decode raw = some d ∧
        (getFieldE d "timestamp" = .error () ∨
          ∃ ts, getFieldE d "timestamp" = .ok ts ∧
            (jsIsFinite ts = false ∨
              ∃ st, getFieldE d "state" = .ok st ∧ jsTypeofObject st = false))) :
    (LoadEvent.applyHit ∉
        (loadRun cfg ck refresh defaults opts payload storage0 now).events ∧
      LoadEvent.refreshCall ∈
        (loadRun cfg ck refresh defaults opts payload storage0 now).events) ∧
    ((loadRun cfg ck refresh defaults opts payload storage0 now).thrown = none ∨
      ∃ msg, (loadRun cfg ck refresh defaults opts payload storage0 now).thrown =
        some (wrapError cfg.id msg)) ∧
    (∀ pre post,
      (loadRun cfg ck refresh defaults opts payload storage0 now).events =
        pre ++ .refreshCall :: post →
      ∀ k', LoadEvent.storeRemove k' ∉ pre ∧ LoadEvent.storeSet k' ∉ pre) := by
  have hmiss := getExistingCacheData_corrupt_none cfg ck (computedCacheKeyOf cfg opts)
    payload storage0 now raw (computedCacheKeyOf_ne_empty cfg opts) hs hraw hne hcorrupt
  have hout := loadRun_outcome cfg ck refresh defaults opts payload storage0 now
  refine ⟨?_, loadRun_thrown_cases cfg ck refresh defaults opts payload storage0 now,
    loadRun_no_store_before_refresh cfg ck refresh defaults opts payload storage0 now⟩
  rcases hout.2 with hhitcase | hmisscase
  · exact absurd hmiss (hout.1.mp hhitcase)
  · exact hmisscase

theorem C7_corrupt_entry_is_miss_witness :
    (cfg7w.hasStorage = true ∧
      lookupStorage [(key7w, "%%%")] (computedCacheKeyOf cfg7w .null) = some "%%%" ∧
      ("%%%" : String) ≠ "" ∧ decode "%%%" = none) ∧
    (LoadEvent.applyHit ∉
        (loadRun cfg7w trueCk idRefresh [] .null .null [(key7w, "%%%")] 1000).events ∧
      LoadEvent.refreshCall ∈
        (loadRun cfg7w trueCk idRefresh [] .null .null [(key7w, "%%%")] 1000).events) := by
  have h := C7_corrupt_entry_is_miss cfg7w trueCk idRefresh [] .null .null
    [(key7w, "%%%")] 1000 "%%%" rfl (by rfl) (by decide) (Or.inl (by rfl))
  exact ⟨⟨rfl, by rfl, by decide, by rfl⟩, h.1⟩

/-- C8 counterexample to the original wording: with colliding
configured prefixes ("store"/"a" against "store-a"/"b"), store A's
clearCache removes the entry stored under store B's own computed key,
so an entry of a different store sharing the backend is not left
untouched. -/
theorem C8_counterexample :
    cfgA8.id ≠ cfgB8.id ∧
    keyB8 = computedCacheKeyOf cfgB8 .null ∧
    lookupStorage storage8 keyB8 = some "otherdata" ∧
    lookupStorage (clearCacheRun cfgA8 [] storage8).2 keyB8 = none := by
  refine ⟨?_, rfl, by rfl, by rfl⟩
  intro h
  have h2 : ("a" : String) = "b" := h
  exact absurd h2 (by decide)

/-- C8 (amended): clearCache resets the data state to its defaults and
removes exactly the storage entries whose key starts with
keyPrefix-id-: a lookup after clearing returns none for keys matching
the prefix and is unchanged for all other keys.  Entries of other
stores are therefore untouched only when their keys do not match this
store's prefix; configured prefix collisions can delete foreign
entries. -/
theorem C8_clear_cache_scope (cfg : CachingConfig) (defaults : List (String × Value))
    (storage0 : Storage) (k : String) (hs : cfg.hasStorage = true) :
    (clearCacheRun cfg defaults storage0).1 = defaults ∧
    lookupStorage (clearCacheRun cfg defaults storage0).2 k =
      (if charsStartWith k.data (clearPref cfg).data then none
       else lookupStorage storage0 k) := by
  refine ⟨rfl, ?_⟩
  show lookupStorage (if cfg.hasStorage then
      storage0.filter (fun e => !charsStartWith e.1.data (clearPref cfg).data)
    else storage0) k = _
  rw [if_pos hs]
  exact lookupStorage_filterPred storage0
    (fun key => charsStartWith key.data (clearPref cfg).data) k

theorem C8_clear_cache_scope_witness :
    cfg8w.hasStorage = true ∧
    (clearCacheRun cfg8w [] storage8w).1 = [] ∧
    lookupStorage (clearCacheRun cfg8w [] storage8w).2 "p-clearwit-0" = none ∧
    lookupStorage (clearCacheRun cfg8w [] storage8w).2 "q-other-0" = some "theirs" := by
  have h1 := C8_clear_cache_scope cfg8w [] storage8w "p-clearwit-0" rfl
  have h2 := C8_clear_cache_scope cfg8w [] storage8w "q-other-0" rfl
  refine ⟨rfl, h1.1, ?_, ?_⟩
  · rw [h1.2]
    rfl
  · rw [h2.2]
    rfl
